import Mathlib

/-!
# Distributed queue recipe (`contrib/recipes/queue.go`)

A shallow embedding of `Queue.Enqueue` and `Queue.Dequeue`.  The queue talks to
a key-value store through four calls (`Get`, `deleteRevKey`,
`WaitPrefixEvents`, `newUniqueKV`); they are gathered in the record `Client`,
which passes the state of the outside world explicitly.  `Dequeue` calls itself
without bound in the source, so the embedding carries a recursion budget.
The `fmt.Printf` lines of the source only write to standard output and are
left out.
-/

namespace Recipe

/-- Go's `error` values. -/
structure Error where
  msg : String
deriving DecidableEq, Repr

/-- A Go result pair `(T, error)` of a store call: a value, or a non-nil error. -/
inductive Res (α : Type) where
  | ok (a : α)
  | err (e : Error)
deriving DecidableEq, Repr

/-- The fields of `mvccpb.KeyValue` that the queue reads. -/
structure KeyValue where
  Key : String
  Value : String
  ModRevision : Int
deriving DecidableEq, Repr

/-- The kinds of `mvccpb.Event`. -/
inductive EventType where
  | PUT
  | DELETE
deriving DecidableEq, Repr

/-- A watch event: its kind (the field `Type` of the source) and the key-value
it reports. -/
structure Event where
  EvType : EventType
  Kv : KeyValue
deriving DecidableEq, Repr

/-- The response header of a range read. -/
structure ResponseHeader where
  Revision : Int
deriving DecidableEq, Repr

/-- The fields of a `Get` response that the queue reads. -/
structure GetResponse where
  Header : ResponseHeader
  Kvs : List KeyValue
  More : Bool
deriving DecidableEq, Repr

/-- Modelled from the spec: the options of a range read (package clientv3, not under src/).
A range read is `RangeRead(keyPrefix, ordering=ascending, limit)`: it always
covers the namespace in ascending key order, and the options fix the page
size `limit`. -/
structure OpOptions where
  limit : Nat
deriving DecidableEq, Repr

/-- Modelled from the spec: `v3.WithFirstRev()` (not under src/) asks for the single
oldest entry of the namespace ("TODO: fewer round trips by fetching more than
one key" in `Dequeue`). -/
def WithFirstRev : OpOptions := ⟨1⟩

/-- Modelled from the spec: the handle returned by `newUniqueKV` (not under src/):
the key that was allocated, the commit revision and the value. -/
structure RemoteKV where
  key : String
  rev : Int
  val : String
deriving DecidableEq, Repr

/-- The store calls made by the queue, with the state `σ` of the outside world
passed explicitly: `Get` of the client, and the functions `deleteRevKey`,
`WaitPrefixEvents` and `newUniqueKV` of the package, which take the client as
their first argument.  None of them is under src/; `Dequeue` and `Enqueue` are
embedded over an arbitrary implementation of them.  `WaitPrefixEvents` answers
`none` when it never returns. -/
structure Client (σ : Type) where
  Get : String → OpOptions → σ → σ × Res GetResponse
  deleteRevKey : String → Int → σ → σ × Res Bool
  WaitPrefixEvents : String → Int → List EventType → σ → σ × Option (Res Event)
  newUniqueKV : String → String → σ → σ × Res RemoteKV

/-- The `Queue` struct; the `ctx` field is always `context.TODO()` and carries no data. -/
structure Queue (σ : Type) where
  client : Client σ
  keyPrefix : String

/-- The constructor `NewQueue`. -/
def NewQueue {σ : Type} (client : Client σ) (keyPrefix : String) : Queue σ :=
  ⟨client, keyPrefix⟩

/-- What a call of `Dequeue` comes to: it returns the Go pair `(string, error)`,
it waits for ever inside `WaitPrefixEvents`, or the recursion budget of the
embedding is used up. -/
inductive Outcome where
  | returned (val : String) (err : Option Error)
  | blocked
  | outOfFuel
deriving DecidableEq, Repr

/-- Modelled from the spec: `claimFirstKey` (not under src/).  "Attempt Claim on entries
in ascending key order until one succeeds or the candidate set is exhausted";
a store error is passed on at once. -/
def claimFirstKey {σ : Type} (c : Client σ) : List KeyValue → σ → σ × Res (Option KeyValue)
  | [], s => (s, Res.ok none)
  | k :: kvs, s =>
    match c.deleteRevKey k.Key k.ModRevision s with
    | (s1, Res.err e) => (s1, Res.err e)
    | (s1, Res.ok true) => (s1, Res.ok (some k))
    | (s1, Res.ok false) => claimFirstKey c kvs s1

/-- `Queue.Enqueue`: the result of `newUniqueKV` is dropped, its error returned. -/
def Queue.Enqueue {σ : Type} (q : Queue σ) (val : String) (s : σ) : σ × Option Error :=
  match q.client.newUniqueKV q.keyPrefix val s with
  | (s1, Res.ok _) => (s1, none)
  | (s1, Res.err e) => (s1, some e)

/-- `Queue.Dequeue`, with a budget for the calls `return q.Dequeue()`. -/
def Queue.Dequeue {σ : Type} (q : Queue σ) : Nat → σ → σ × Outcome
  | 0, s => (s, Outcome.outOfFuel)
  | fuel + 1, s =>
    match q.client.Get q.keyPrefix WithFirstRev s with
    | (s1, Res.err e) => (s1, Outcome.returned "" (some e))
    | (s1, Res.ok resp) =>
      match claimFirstKey q.client resp.Kvs s1 with
      | (s2, Res.err e) => (s2, Outcome.returned "" (some e))
      | (s2, Res.ok (some kv)) => (s2, Outcome.returned kv.Value none)
      | (s2, Res.ok none) =>
        if resp.More then
          Queue.Dequeue q fuel s2
        else
          match q.client.WaitPrefixEvents q.keyPrefix resp.Header.Revision
              [EventType.PUT] s2 with
          | (s3, none) => (s3, Outcome.blocked)
          | (s3, some (Res.err e)) => (s3, Outcome.returned "" (some e))
          | (s3, some (Res.ok ev)) =>
            match q.client.deleteRevKey ev.Kv.Key ev.Kv.ModRevision s3 with
            | (s4, Res.err e) => (s4, Outcome.returned "" (some e))
            | (s4, Res.ok false) => Queue.Dequeue q fuel s4
            | (s4, Res.ok true) => (s4, Outcome.returned ev.Kv.Value none)

/-! ## Recording the calls of a run -/

/-- One store call together with the answer it got. -/
inductive Call where
  | get (key : String) (opts : OpOptions) (resp : Res GetResponse)
  | del (key : String) (rev : Int) (resp : Res Bool)
  | wait (pfx : String) (rev : Int) (evs : List EventType) (resp : Option (Res Event))
  | put (pfx : String) (val : String) (resp : Res RemoteKV)
deriving DecidableEq, Repr

/-- The same client, which in addition writes every call and its answer at the
end of a log. -/
def logged {σ : Type} (c : Client σ) : Client (σ × List Call) where
  Get key opts := fun sl =>
    match c.Get key opts sl.1 with
    | (s1, r) => ((s1, sl.2 ++ [Call.get key opts r]), r)
  deleteRevKey key rev := fun sl =>
    match c.deleteRevKey key rev sl.1 with
    | (s1, r) => ((s1, sl.2 ++ [Call.del key rev r]), r)
  WaitPrefixEvents pfx rev evs := fun sl =>
    match c.WaitPrefixEvents pfx rev evs sl.1 with
    | (s1, r) => ((s1, sl.2 ++ [Call.wait pfx rev evs r]), r)
  newUniqueKV pfx val := fun sl =>
    match c.newUniqueKV pfx val sl.1 with
    | (s1, r) => ((s1, sl.2 ++ [Call.put pfx val r]), r)

/-- The queue over the logging client. -/
def Queue.logged {σ : Type} (q : Queue σ) : Queue (σ × List Call) :=
  ⟨Recipe.logged q.client, q.keyPrefix⟩

/-- The calls that `Dequeue` makes, in order, when started in state `s`. -/
def Queue.trace {σ : Type} (q : Queue σ) (fuel : Nat) (s : σ) : List Call :=
  (q.logged.Dequeue fuel (s, [])).1.2

/-- The error, if any, that a call was answered with. -/
def Call.error? : Call → Option Error
  | Call.get _ _ (Res.err e) => some e
  | Call.del _ _ (Res.err e) => some e
  | Call.wait _ _ _ (some (Res.err e)) => some e
  | Call.put _ _ (Res.err e) => some e
  | _ => none

/-! ## The store, modelled from the spec

The store itself (etcd and package clientv3) is not part of the source file.
It is modelled from sections 3, 4 and 6 of the spec: a revision counter that
every committed write increases, the entries ordered by key, and the ordered
stream of change events.
-/

/-- Whether `key` lies in the namespace `pfx`. -/
def underPrefix (pfx key : String) : Bool :=
  pfx.data.isPrefixOf key.data

/-- Modelled from the spec: the versioned store (not under src/): the revision of the last
committed write, the entries in ascending key order, and every change event so
far, oldest first. -/
structure Store where
  Revision : Int
  Kvs : List KeyValue
  Events : List Event
deriving DecidableEq, Repr

/-- The lexical order of keys, decided on their characters. -/
def keyLt (a b : String) : Bool :=
  decide (a.data < b.data)

/-- Modelled from the spec: writing an entry into the key-ordered entries (not under src/);
an entry with the same key is replaced. -/
def insertKV (kv : KeyValue) : List KeyValue → List KeyValue
  | [] => [kv]
  | x :: xs =>
    if keyLt kv.Key x.Key then kv :: x :: xs
    else if kv.Key = x.Key then kv :: xs
    else x :: insertKV kv xs

/-- Modelled from the spec: `Write(key, value) -> revision` (not under src/): the write is
committed at the next revision, which becomes the entry's revision, and an
insertion event is emitted. -/
def Store.put (s : Store) (key val : String) : Store :=
  { Revision := s.Revision + 1
    Kvs := insertKV ⟨key, val, s.Revision + 1⟩ s.Kvs
    Events := s.Events ++ [⟨EventType.PUT, ⟨key, val, s.Revision + 1⟩⟩] }

/-- Modelled from the spec: `ConditionalDelete(key, expectedRevision)` (not under src/):
"delete key only if its current store revision still equals expectedRevision";
a delete that executes is a committed write and emits a removal event, one
whose condition fails changes nothing. -/
def Store.deleteRev (s : Store) (key : String) (rev : Int) : Store × Bool :=
  match s.Kvs.find? (fun kv => kv.Key = key) with
  | some kv =>
    if kv.ModRevision = rev then
      ({ Revision := s.Revision + 1
         Kvs := s.Kvs.filter (fun x => x.Key ≠ key)
         Events := s.Events ++ [⟨EventType.DELETE, ⟨key, "", s.Revision + 1⟩⟩] }, true)
    else (s, false)
  | none => (s, false)

/-- The entries of the namespace `pfx`, in ascending key order. -/
def Store.view (s : Store) (pfx : String) : List KeyValue :=
  s.Kvs.filter (fun kv => underPrefix pfx kv.Key)

/-- Modelled from the spec: `RangeRead(keyPrefix, ordering=ascending, limit) ->
(entries, headerRevision, moreAvailable)` (not under src/). -/
def Store.range (s : Store) (pfx : String) (opts : OpOptions) : GetResponse :=
  { Header := ⟨s.Revision⟩
    Kvs := (s.view pfx).take opts.limit
    More := decide (opts.limit < (s.view pfx).length) }

/-- Modelled from the spec: the event that `WatchPrefix(keyPrefix, fromRevision,
eventKindFilter)` (not under src/) delivers first: the oldest event of a requested kind
on a key of the namespace, at revision `rev` or later. -/
def firstEvent (pfx : String) (rev : Int) (evs : List EventType) (history : List Event) :
    Option Event :=
  history.find? (fun ev =>
    decide (rev ≤ ev.Kv.ModRevision) && (decide (ev.EvType ∈ evs) && underPrefix pfx ev.Kv.Key))

/-- Modelled from the spec: the key that the KeyAllocator forms from a namespace and the
revision of the write (the allocator is not under src/). -/
abbrev KeyFormat := String → Int → String

/-- Modelled from the spec: the decimal digits of `n`, zero-padded to the fixed width `w`
(key format of the KeyAllocator, not under src/). -/
def fixedWidth : Nat → Nat → List Char
  | 0, _ => []
  | w + 1, n => fixedWidth w (n / 10) ++ [Char.ofNat (48 + n % 10)]

/-- Modelled from the spec: a key format "with fixed-width zero-padding so lexical and
numeric order coincide" (not under src/): the namespace, a slash, and twenty digits. -/
def paddedKey : KeyFormat := fun pfx rev =>
  pfx ++ "/" ++ String.mk (fixedWidth 20 rev.toNat)

/-- Modelled from the spec: what another client (a producer or a consumer, not under
src/) does to the store: a write, an `Enqueue`, a conditional delete. -/
inductive Action where
  | put (key val : String)
  | enqueue (pfx val : String)
  | delete (key : String) (rev : Int)
deriving DecidableEq, Repr

/-- Modelled from the spec: the effect of another client's action on the store (not under
src/); an `Enqueue` writes under the key formed from the revision of the
write. -/
def Action.apply (keyFor : KeyFormat) (a : Action) (s : Store) : Store :=
  match a with
  | Action.put key val => s.put key val
  | Action.enqueue pfx val => s.put (keyFor pfx (s.Revision + 1)) val
  | Action.delete key rev => (s.deleteRev key rev).1

/-- One item of the schedule of the outside world: an action of another client,
the moment at which the next call of this client is served, or a failure of
the next call of this client. -/
inductive Tick where
  | act (a : Action)
  | turn
  | fault (e : Error)
deriving DecidableEq, Repr

/-- The store together with what the outside world will still do. -/
structure World where
  store : Store
  script : List Tick
deriving DecidableEq, Repr

/-- The actions of the other clients that come before the next call of this
client is served, and whether that call fails. -/
def advance (keyFor : KeyFormat) : List Tick → Store → World × Option Error
  | [], s => (⟨s, []⟩, none)
  | Tick.turn :: rest, s => (⟨s, rest⟩, none)
  | Tick.fault e :: rest, s => (⟨s, rest⟩, some e)
  | Tick.act a :: rest, s => advance keyFor rest (a.apply keyFor s)

/-- Modelled from the spec: `WaitForArrival` (not under src/): the wait returns "the first
matching event" as soon as one exists; until then the other clients go on.  A
failure or cancellation that comes first ends the wait, and when the schedule
runs out first the wait never returns. -/
def awaitEvent (keyFor : KeyFormat) (pfx : String) (rev : Int) (evs : List EventType) :
    List Tick → Store → World × Option (Res Event)
  | [], s =>
    match firstEvent pfx rev evs s.Events with
    | some ev => (⟨s, []⟩, some (Res.ok ev))
    | none => (⟨s, []⟩, none)
  | Tick.act a :: rest, s =>
    match firstEvent pfx rev evs s.Events with
    | some ev => (⟨s, Tick.act a :: rest⟩, some (Res.ok ev))
    | none => awaitEvent keyFor pfx rev evs rest (a.apply keyFor s)
  | Tick.turn :: rest, s =>
    match firstEvent pfx rev evs s.Events with
    | some ev => (⟨s, Tick.turn :: rest⟩, some (Res.ok ev))
    | none => awaitEvent keyFor pfx rev evs rest s
  | Tick.fault e :: rest, s =>
    match firstEvent pfx rev evs s.Events with
    | some ev => (⟨s, Tick.fault e :: rest⟩, some (Res.ok ev))
    | none => (⟨s, rest⟩, some (Res.err e))

/-- Modelled from the spec: the four store calls of the queue (not under src/), served by
the modelled store among the actions of the other clients.  A call that fails
has no effect on the store. -/
def worldClient (keyFor : KeyFormat) : Client World where
  Get key opts := fun w =>
    match advance keyFor w.script w.store with
    | (w1, some e) => (w1, Res.err e)
    | (w1, none) => (w1, Res.ok (w1.store.range key opts))
  deleteRevKey key rev := fun w =>
    match advance keyFor w.script w.store with
    | (w1, some e) => (w1, Res.err e)
    | (w1, none) => (⟨(w1.store.deleteRev key rev).1, w1.script⟩,
        Res.ok (w1.store.deleteRev key rev).2)
  WaitPrefixEvents pfx rev evs := fun w =>
    match advance keyFor w.script w.store with
    | (w1, some e) => (w1, some (Res.err e))
    | (w1, none) => awaitEvent keyFor pfx rev evs w1.script w1.store
  newUniqueKV pfx val := fun w =>
    match advance keyFor w.script w.store with
    | (w1, some e) => (w1, Res.err e)
    | (w1, none) =>
      (⟨w1.store.put (keyFor pfx (w1.store.Revision + 1)) val, w1.script⟩,
        Res.ok ⟨keyFor pfx (w1.store.Revision + 1), w1.store.Revision + 1, val⟩)

/-- `Enqueue` of each value of a list, one call after the other. -/
def enqueueAll {σ : Type} (q : Queue σ) : List String → σ → σ × List (Option Error)
  | [], s => (s, [])
  | v :: vs, s =>
    match q.Enqueue v s with
    | (s1, e) => ((enqueueAll q vs s1).1, e :: (enqueueAll q vs s1).2)

/-- A number `n` of `Dequeue` calls, one after the other. -/
def dequeueAll {σ : Type} (q : Queue σ) (fuel : Nat) : Nat → σ → σ × List Outcome
  | 0, s => (s, [])
  | n + 1, s =>
    match q.Dequeue fuel s with
    | (s1, o) => ((dequeueAll q fuel n s1).1, o :: (dequeueAll q fuel n s1).2)

/-! ## The shape of a run -/

/-- The calls of claim attempts that all lose the race. -/
def lost (kvs : List KeyValue) : List Call :=
  kvs.map (fun k => Call.del k.Key k.ModRevision (Res.ok false))

/-- The calls that follow a successful range read within one pass through the
body of `Dequeue`, and the result of that pass (`none` when the pass ends in
`return q.Dequeue()`). -/
inductive Ending (pfx : String) (resp : GetResponse) : List Call → Option Outcome → Prop where
  | claimErr (tried : List KeyValue) (k : KeyValue) (rest : List KeyValue) (e : Error) :
      resp.Kvs = tried ++ k :: rest →
      Ending pfx resp (lost tried ++ [Call.del k.Key k.ModRevision (Res.err e)])
        (some (Outcome.returned "" (some e)))
  | claimed (tried : List KeyValue) (k : KeyValue) (rest : List KeyValue) :
      resp.Kvs = tried ++ k :: rest →
      Ending pfx resp (lost tried ++ [Call.del k.Key k.ModRevision (Res.ok true)])
        (some (Outcome.returned k.Value none))
  | rescan : resp.More = true → Ending pfx resp (lost resp.Kvs) none
  | waitBlocked : resp.More = false →
      Ending pfx resp
        (lost resp.Kvs ++ [Call.wait pfx resp.Header.Revision [EventType.PUT] none])
        (some Outcome.blocked)
  | waitErr (e : Error) : resp.More = false →
      Ending pfx resp
        (lost resp.Kvs ++ [Call.wait pfx resp.Header.Revision [EventType.PUT] (some (Res.err e))])
        (some (Outcome.returned "" (some e)))
  | wakeErr (ev : Event) (e : Error) : resp.More = false →
      Ending pfx resp
        (lost resp.Kvs ++ [Call.wait pfx resp.Header.Revision [EventType.PUT] (some (Res.ok ev)),
          Call.del ev.Kv.Key ev.Kv.ModRevision (Res.err e)])
        (some (Outcome.returned "" (some e)))
  | wakeLost (ev : Event) : resp.More = false →
      Ending pfx resp
        (lost resp.Kvs ++ [Call.wait pfx resp.Header.Revision [EventType.PUT] (some (Res.ok ev)),
          Call.del ev.Kv.Key ev.Kv.ModRevision (Res.ok false)])
        none
  | wakeWon (ev : Event) : resp.More = false →
      Ending pfx resp
        (lost resp.Kvs ++ [Call.wait pfx resp.Header.Revision [EventType.PUT] (some (Res.ok ev)),
          Call.del ev.Kv.Key ev.Kv.ModRevision (Res.ok true)])
        (some (Outcome.returned ev.Kv.Value none))

/-- The sequences of calls that `Dequeue` can make on the namespace `pfx`,
with the result of the run. -/
inductive Run (pfx : String) : List Call → Outcome → Prop where
  | fuel : Run pfx [] Outcome.outOfFuel
  | getErr (e : Error) :
      Run pfx [Call.get pfx WithFirstRev (Res.err e)] (Outcome.returned "" (some e))
  | last (resp : GetResponse) (body : List Call) (o : Outcome) :
      Ending pfx resp body (some o) →
      Run pfx (Call.get pfx WithFirstRev (Res.ok resp) :: body) o
  | again (resp : GetResponse) (body tr : List Call) (o : Outcome) :
      Ending pfx resp body none → Run pfx tr o →
      Run pfx (Call.get pfx WithFirstRev (Res.ok resp) :: (body ++ tr)) o

/-- Whether a call is a range read. -/
def Call.isGet : Call → Bool
  | Call.get _ _ _ => true
  | _ => false

/-- Whether a call is a wait on the event stream. -/
def Call.isWait : Call → Bool
  | Call.wait _ _ _ _ => true
  | _ => false

/-- Whether a call is a conditional delete that succeeded. -/
def Call.won : Call → Bool
  | Call.del _ _ (Res.ok true) => true
  | _ => false

/-! ## Well-formed stores and serial runs -/

/-- The entries of the store are in strictly ascending key order; in particular
no key occurs twice. -/
def Store.Sorted (s : Store) : Prop :=
  s.Kvs.Pairwise (fun a b => keyLt a.Key b.Key = true)

/-- Modelled from the spec: the contract of the KeyAllocator (not under src/) on the
revisions after `lo` up to `hi`: its keys lie in the namespace and "compare in
the same order as insertion time". -/
def KeyFormat.Ordered (keyFor : KeyFormat) (pfx : String) (lo hi : Int) : Prop :=
  (∀ a, lo < a → a ≤ hi → underPrefix pfx (keyFor pfx a) = true) ∧
  (∀ a b, lo < a → a < b → b ≤ hi → keyLt (keyFor pfx a) (keyFor pfx b) = true)

/-- The actions of the other clients in a stretch of the schedule. -/
def actions : List Tick → List Action
  | [] => []
  | Tick.act a :: rest => a :: actions rest
  | _ :: rest => actions rest

/-- The store after a list of actions of other clients. -/
def replay (keyFor : KeyFormat) : List Action → Store → Store
  | [], s => s
  | a :: rest, s => replay keyFor rest (a.apply keyFor s)

/-- The step from `w` to `w1` consumed a stretch of the schedule and changed the
store only by the other clients' actions in that stretch. -/
def EnvOnly (keyFor : KeyFormat) (w w1 : World) : Prop :=
  ∃ used, w.script = used ++ w1.script ∧ w1.store = replay keyFor (actions used) w.store

/-- No other client acts in this stretch of the schedule. -/
def noActs (script : List Tick) : Prop :=
  ∀ a, Tick.act a ∉ script

/-! ## Concurrent calls of `Dequeue`

Several calls of `Dequeue` run against one store.  Each store call is served
atomically (the store is linearizable), so a concurrent execution is an
interleaving of the store calls of the single calls.  A call is followed from
store call to store call; the store calls are served by the modelled store and
do not fail.
-/

/-- The point that a call of `Dequeue` has reached: before the range read;
inside `claimFirstKey`, with the entries still to try; inside the wait from a
revision; woken by an event, before the conditional delete; returned. -/
inductive Pc where
  | start
  | claiming (resp : GetResponse) (todo : List KeyValue)
  | waiting (rev : Int)
  | woken (ev : Event)
  | done (val : String) (err : Option Error)
deriving DecidableEq, Repr

/-- One step of a call of `Dequeue` on the namespace `pfx`: the next store call
is served by the store, and the call moves to the point that the body of
`Dequeue` prescribes: the range read (line 46), the claim attempts of
`claimFirstKey` (line 53, as modelled from the spec), the choice between
`return q.Dequeue()` and the wait (lines 60 to 72), the wait, and the
conditional delete after the wake (lines 79 to 90).  A wait without a
qualifying event stays where it is. -/
def Pc.step (pfx : String) : Pc → Store → Pc × Store
  | Pc.start, s => (Pc.claiming (s.range pfx WithFirstRev) (s.range pfx WithFirstRev).Kvs, s)
  | Pc.claiming resp (k :: todo), s =>
    match s.deleteRev k.Key k.ModRevision with
    | (s1, true) => (Pc.done k.Value none, s1)
    | (s1, false) => (Pc.claiming resp todo, s1)
  | Pc.claiming resp [], s =>
    if resp.More then (Pc.start, s) else (Pc.waiting resp.Header.Revision, s)
  | Pc.waiting rev, s =>
    match firstEvent pfx rev [EventType.PUT] s.Events with
    | some ev => (Pc.woken ev, s)
    | none => (Pc.waiting rev, s)
  | Pc.woken ev, s =>
    match s.deleteRev ev.Kv.Key ev.Kv.ModRevision with
    | (s1, true) => (Pc.done ev.Kv.Value none, s1)
    | (s1, false) => (Pc.start, s1)
  | Pc.done val err, s => (Pc.done val err, s)

/-- A number of steps of a single call. -/
def Pc.iter (pfx : String) : Nat → Pc × Store → Pc × Store
  | 0, c => c
  | n + 1, c => Pc.iter pfx n (Pc.step pfx c.1 c.2)

/-- Whether a call has returned. -/
def Pc.isDone : Pc → Bool
  | Pc.done _ _ => true
  | _ => false

/-- The store and the concurrent calls of `Dequeue`. -/
structure Conf where
  store : Store
  procs : List Pc
deriving DecidableEq, Repr

/-- The call with number `i` takes its next step. -/
def Conf.step (pfx : String) (i : Nat) (c : Conf) : Conf :=
  match c.procs[i]? with
  | none => c
  | some p => ⟨(p.step pfx c.store).2, c.procs.set i (p.step pfx c.store).1⟩

/-- An interleaving: the calls take their steps in the order of the schedule. -/
def Conf.run (pfx : String) : List Nat → Conf → Conf
  | [], c => c
  | i :: sched, c => Conf.run pfx sched (c.step pfx i)

/-- No call can move: each one has returned or waits for an event that is not
there. -/
def Conf.quiescent (pfx : String) (c : Conf) : Prop :=
  ∀ p ∈ c.procs, p.step pfx c.store = (p, c.store)

/-- The points a call can be at while the entry `e` is still in the store. -/
def Pc.early (resp : GetResponse) (e : KeyValue) : Pc → Prop
  | Pc.start => True
  | Pc.claiming r todo => r = resp ∧ todo = [e]
  | _ => False

/-- The points a call can be at once the entry `e` has been claimed. -/
def Pc.late (pfx : String) (e : KeyValue) : Pc → Prop
  | Pc.start => True
  | Pc.claiming r todo => r.More = false ∧ (todo = [e] ∨ todo = [])
  | Pc.waiting _ => True
  | Pc.woken ev => underPrefix pfx ev.Kv.Key = true
  | Pc.done val err => val = e.Value ∧ err = none

/-- The invariant of the interleavings over a store `s` whose namespace holds
exactly the entry `e`: either `e` is still there and no call has returned, or
`e` was claimed by exactly one call. -/
def Conf.Inv (pfx : String) (s : Store) (e : KeyValue) (c : Conf) : Prop :=
  (c.store = s ∧ c.procs.countP Pc.isDone = 0 ∧
    ∀ p ∈ c.procs, p.early (s.range pfx WithFirstRev) e) ∨
  (c.store = (s.deleteRev e.Key e.ModRevision).1 ∧ c.procs.countP Pc.isDone = 1 ∧
    ∀ p ∈ c.procs, p.late pfx e)

/-- While no call has returned, a call that has not been scheduled yet is at
the start and a call that has been scheduled once is inside `claimFirstKey`;
no call has been scheduled twice.  The list `hist` is the schedule so far. -/
def Conf.Fresh (hist : List Nat) (c : Conf) : Prop :=
  c.procs.countP Pc.isDone = 0 → ∀ i p, c.procs[i]? = some p →
    (p = Pc.start ∧ hist.count i = 0) ∨
    ((∃ r todo, p = Pc.claiming r todo) ∧ hist.count i = 1)

end Recipe

/-! # Theorems -/

namespace Recipe

/-! ## Runs of the logging client -/

theorem claim_logged {σ : Type} (c : Client σ) (kvs : List KeyValue) (s : σ) (l : List Call) :
    ∃ ct, claimFirstKey (logged c) kvs (s, l)
        = (((claimFirstKey c kvs s).1, l ++ ct), (claimFirstKey c kvs s).2) ∧
      (match (claimFirstKey c kvs s).2 with
        | Res.ok none => ct = lost kvs
        | Res.ok (some k) => ∃ tried rest, kvs = tried ++ k :: rest ∧
            ct = lost tried ++ [Call.del k.Key k.ModRevision (Res.ok true)]
        | Res.err e => ∃ tried k rest, kvs = tried ++ k :: rest ∧
            ct = lost tried ++ [Call.del k.Key k.ModRevision (Res.err e)]) := by
  induction kvs generalizing s l with
  | nil => exact ⟨[], by simp [claimFirstKey, lost]⟩
  | cons k kvs ih =>
    rcases h : c.deleteRevKey k.Key k.ModRevision s with ⟨s1, r⟩
    rcases r with b | e
    · cases b
      · obtain ⟨ct, h1, h2⟩ := ih s1 (l ++ [Call.del k.Key k.ModRevision (Res.ok false)])
        refine ⟨Call.del k.Key k.ModRevision (Res.ok false) :: ct, ?_, ?_⟩
        · simp [claimFirstKey, logged, h] at h1 ⊢
          simpa [logged] using h1
        · simp only [claimFirstKey, h]
          rcases h3 : (claimFirstKey c kvs s1).2 with o | e
          · rw [h3] at h2
            cases o with
            | none => simp at h2 ⊢; simp [h2, lost]
            | some k2 =>
              simp at h2 ⊢
              obtain ⟨tried, hk, hct⟩ := h2
              refine ⟨k :: tried, ?_, ?_⟩
              · obtain ⟨rest, hr⟩ := hk
                exact ⟨rest, by simp [hr]⟩
              · simp [hct, lost]
          · rw [h3] at h2
            simp at h2 ⊢
            obtain ⟨tried, k2, hk, hct⟩ := h2
            refine ⟨k :: tried, k2, ?_, ?_⟩
            · obtain ⟨rest, hr⟩ := hk
              exact ⟨rest, by simp [hr]⟩
            · simp [hct, lost]
      · refine ⟨[Call.del k.Key k.ModRevision (Res.ok true)], ?_, ?_⟩
        · simp [claimFirstKey, logged, h]
        · simp only [claimFirstKey, h]
          exact ⟨[], kvs, by simp, by simp [lost]⟩
    · refine ⟨[Call.del k.Key k.ModRevision (Res.err e)], ?_, ?_⟩
      · simp [claimFirstKey, logged, h]
      · simp only [claimFirstKey, h]
        exact ⟨[], k, kvs, by simp, by simp [lost]⟩

theorem dequeue_logged {σ : Type} (q : Queue σ) (fuel : Nat) (s : σ) (l : List Call) :
    ∃ tr, q.logged.Dequeue fuel (s, l)
        = (((q.Dequeue fuel s).1, l ++ tr), (q.Dequeue fuel s).2) ∧
      Run q.keyPrefix tr (q.Dequeue fuel s).2 := by
  induction fuel generalizing s l with
  | zero => exact ⟨[], by simp [Queue.Dequeue], Run.fuel⟩
  | succ fuel ih =>
    rcases hg : q.client.Get q.keyPrefix WithFirstRev s with ⟨s1, r⟩
    rcases r with resp | e
    swap
    · exact ⟨[Call.get q.keyPrefix WithFirstRev (Res.err e)],
        by simp [Queue.Dequeue, Queue.logged, logged, hg],
        by simpa [Queue.Dequeue, hg] using Run.getErr e⟩
    obtain ⟨ct, hc1, hc2⟩ := claim_logged q.client resp.Kvs s1
      (l ++ [Call.get q.keyPrefix WithFirstRev (Res.ok resp)])
    rcases hc : claimFirstKey q.client resp.Kvs s1 with ⟨s2, r2⟩
    rw [hc] at hc1 hc2
    simp only at hc1 hc2
    rcases r2 with o | e
    swap
    · obtain ⟨tried, k, rest, hk, hct⟩ := hc2
      refine ⟨Call.get q.keyPrefix WithFirstRev (Res.ok resp) :: ct, ?_, ?_⟩
      · simp [Queue.Dequeue, Queue.logged, logged, hg, hc] at hc1 ⊢
        simp [hc1]
      · simp only [Queue.Dequeue, hg, hc]
        exact Run.last resp ct _ (hct ▸ Ending.claimErr tried k rest e hk)
    cases o with
    | some k =>
      obtain ⟨tried, rest, hk, hct⟩ := hc2
      refine ⟨Call.get q.keyPrefix WithFirstRev (Res.ok resp) :: ct, ?_, ?_⟩
      · simp [Queue.Dequeue, Queue.logged, logged, hg, hc] at hc1 ⊢
        simp [hc1]
      · simp only [Queue.Dequeue, hg, hc]
        exact Run.last resp ct _ (hct ▸ Ending.claimed tried k rest hk)
    | none =>
      simp only at hc2
      subst hc2
      by_cases hm : resp.More = true
      · obtain ⟨tr, ht1, ht2⟩ := ih s2
          (l ++ [Call.get q.keyPrefix WithFirstRev (Res.ok resp)] ++ lost resp.Kvs)
        refine ⟨Call.get q.keyPrefix WithFirstRev (Res.ok resp) :: (lost resp.Kvs ++ tr), ?_, ?_⟩
        · simp [Queue.Dequeue, Queue.logged, logged, hg, hc, hm] at hc1 ht1 ⊢
          simp [hc1, ht1]
        · simp only [Queue.Dequeue, hg, hc, hm, if_true]
          exact Run.again resp _ tr _ (Ending.rescan hm) ht2
      · have hm2 : resp.More = false := by simpa using hm
        rcases hw : q.client.WaitPrefixEvents q.keyPrefix resp.Header.Revision
          [EventType.PUT] s2 with ⟨s3, r3⟩
        rcases r3 with _ | r3
        · refine ⟨Call.get q.keyPrefix WithFirstRev (Res.ok resp) :: (lost resp.Kvs ++
            [Call.wait q.keyPrefix resp.Header.Revision [EventType.PUT] none]), ?_, ?_⟩
          · simp [Queue.Dequeue, Queue.logged, logged, hg, hc, hm2, hw] at hc1 ⊢
            simp [hc1, hw]
          · simp only [Queue.Dequeue, hg, hc, hm2, hw]
            exact Run.last resp _ _ (Ending.waitBlocked hm2)
        rcases r3 with ev | e
        swap
        · refine ⟨Call.get q.keyPrefix WithFirstRev (Res.ok resp) :: (lost resp.Kvs ++
            [Call.wait q.keyPrefix resp.Header.Revision [EventType.PUT] (some (Res.err e))]),
            ?_, ?_⟩
          · simp [Queue.Dequeue, Queue.logged, logged, hg, hc, hm2, hw] at hc1 ⊢
            simp [hc1, hw]
          · simp only [Queue.Dequeue, hg, hc, hm2, hw]
            exact Run.last resp _ _ (Ending.waitErr e hm2)
        rcases hd : q.client.deleteRevKey ev.Kv.Key ev.Kv.ModRevision s3 with ⟨s4, r4⟩
        rcases r4 with b | e
        swap
        · refine ⟨Call.get q.keyPrefix WithFirstRev (Res.ok resp) :: (lost resp.Kvs ++
            [Call.wait q.keyPrefix resp.Header.Revision [EventType.PUT] (some (Res.ok ev)),
             Call.del ev.Kv.Key ev.Kv.ModRevision (Res.err e)]), ?_, ?_⟩
          · simp [Queue.Dequeue, Queue.logged, logged, hg, hc, hm2, hw, hd] at hc1 ⊢
            simp [hc1, hw, hd]
          · simp only [Queue.Dequeue, hg, hc, hm2, hw, hd]
            exact Run.last resp _ _ (Ending.wakeErr ev e hm2)
        cases b
        · obtain ⟨tr, ht1, ht2⟩ := ih s4
            (l ++ [Call.get q.keyPrefix WithFirstRev (Res.ok resp)] ++ lost resp.Kvs ++
              [Call.wait q.keyPrefix resp.Header.Revision [EventType.PUT] (some (Res.ok ev)),
               Call.del ev.Kv.Key ev.Kv.ModRevision (Res.ok false)])
          refine ⟨Call.get q.keyPrefix WithFirstRev (Res.ok resp) :: ((lost resp.Kvs ++
            [Call.wait q.keyPrefix resp.Header.Revision [EventType.PUT] (some (Res.ok ev)),
             Call.del ev.Kv.Key ev.Kv.ModRevision (Res.ok false)]) ++ tr), ?_, ?_⟩
          · simp [Queue.Dequeue, Queue.logged, logged, hg, hc, hm2, hw, hd] at hc1 ht1 ⊢
            simp [hc1, hw, hd, ht1]
          · simp only [Queue.Dequeue, hg, hc, hm2, hw, hd]
            exact Run.again resp _ tr _ (Ending.wakeLost ev hm2) ht2
        · refine ⟨Call.get q.keyPrefix WithFirstRev (Res.ok resp) :: (lost resp.Kvs ++
            [Call.wait q.keyPrefix resp.Header.Revision [EventType.PUT] (some (Res.ok ev)),
             Call.del ev.Kv.Key ev.Kv.ModRevision (Res.ok true)]), ?_, ?_⟩
          · simp [Queue.Dequeue, Queue.logged, logged, hg, hc, hm2, hw, hd] at hc1 ⊢
            simp [hc1, hw, hd]
          · simp only [Queue.Dequeue, hg, hc, hm2, hw, hd]
            exact Run.last resp _ _ (Ending.wakeWon ev hm2)

/-- Every run of `Dequeue` has one of the shapes of `Run`. -/
theorem dequeue_run {σ : Type} (q : Queue σ) (fuel : Nat) (s : σ) :
    Run q.keyPrefix (q.trace fuel s) (q.Dequeue fuel s).2 := by
  obtain ⟨tr, h1, h2⟩ := dequeue_logged q fuel s []
  have : q.trace fuel s = tr := by simp [Queue.trace, h1]
  rw [this]
  exact h2

/-- Logging does not change what `Dequeue` does. -/
theorem dequeue_logged_eq {σ : Type} (q : Queue σ) (fuel : Nat) (s : σ) :
    q.logged.Dequeue fuel (s, []) = (((q.Dequeue fuel s).1, q.trace fuel s), (q.Dequeue fuel s).2) := by
  obtain ⟨tr, h1, _⟩ := dequeue_logged q fuel s []
  have : q.trace fuel s = tr := by simp [Queue.trace, h1]
  rw [this, h1]
  simp

/-! ## Lists of calls -/

theorem split_skip {α : Type} (p : α → Prop) {A B pre post : List α} {x : α}
    (hA : ∀ a ∈ A, ¬ p a) (hx : p x) (h : A ++ B = pre ++ x :: post) :
    ∃ mid, pre = A ++ mid ∧ B = mid ++ x :: post := by
  induction A generalizing pre with
  | nil => exact ⟨pre, by simp, by simpa using h⟩
  | cons a A ih =>
    cases pre with
    | nil =>
      simp at h
      exact absurd (h.1 ▸ hx) (hA a (by simp))
    | cons b pre =>
      simp at h
      obtain ⟨mid, h1, h2⟩ := ih (fun a ha => hA a (by simp [ha])) h.2
      exact ⟨mid, by simp [h.1, h1], h2⟩

theorem mem_lost {kvs : List KeyValue} {x : Call} (h : x ∈ lost kvs) :
    ∃ k : KeyValue, x = Call.del k.Key k.ModRevision (Res.ok false) := by
  simp only [lost, List.mem_map] at h
  obtain ⟨k, _, hk⟩ := h
  exact ⟨k, hk.symm⟩

theorem lost_append (a b : List KeyValue) : lost (a ++ b) = lost a ++ lost b := by
  simp [lost]

theorem lost_cons (k : KeyValue) (b : List KeyValue) :
    lost (k :: b) = Call.del k.Key k.ModRevision (Res.ok false) :: lost b := by
  simp [lost]

theorem lost_no_get {kvs : List KeyValue} : ∀ x ∈ lost kvs, ¬ (x.isGet = true) := by
  intro x hx
  obtain ⟨k, rfl⟩ := mem_lost hx
  simp [Call.isGet]

theorem lost_no_error {kvs : List KeyValue} : ∀ x ∈ lost kvs, ¬ (x.error?.isSome = true) := by
  intro x hx
  obtain ⟨k, rfl⟩ := mem_lost hx
  simp [Call.error?]

theorem Ending.no_get {pfx : String} {resp : GetResponse} {body : List Call}
    {oo : Option Outcome} (h : Ending pfx resp body oo) :
    ∀ x ∈ body, ¬ (x.isGet = true) := by
  intro x hx
  cases h <;> try simp only [List.mem_append, List.mem_cons, List.mem_singleton,
    List.not_mem_nil, or_false] at hx
  all_goals
    first
    | exact lost_no_get x hx
    | (rcases hx with hx | hx
       · exact lost_no_get x hx
       · rcases hx with rfl | rfl <;> simp [Call.isGet])

/-- A run is empty, when the budget is used up, or starts with a range read. -/
theorem Run.head {pfx : String} {tr : List Call} {o : Outcome} (h : Run pfx tr o) :
    (tr = [] ∧ o = Outcome.outOfFuel) ∨ ∃ r tl, tr = Call.get pfx WithFirstRev r :: tl := by
  cases h with
  | fuel => exact Or.inl ⟨rfl, rfl⟩
  | getErr e => exact Or.inr ⟨_, _, rfl⟩
  | last resp body o _ => exact Or.inr ⟨_, _, rfl⟩
  | again resp body tr o _ _ => exact Or.inr ⟨_, _, rfl⟩

/-- Within one pass, a call that fails is the last call, and the pass returns
its error. -/
theorem Ending.error_at_end {pfx : String} {resp : GetResponse} {body : List Call}
    {oo : Option Outcome} (h : Ending pfx resp body oo) {pre post : List Call} {call : Call}
    {e : Error} (hb : body = pre ++ call :: post) (he : call.error? = some e) :
    post = [] ∧ oo = some (Outcome.returned "" (some e)) := by
  have hp : call.error?.isSome = true := by simp [he]
  cases h with
  | claimErr tried k rest e0 hk =>
    obtain ⟨mid, _, h2⟩ := split_skip (fun x => x.error?.isSome = true) lost_no_error hp hb
    rcases mid with _ | ⟨m, mid⟩
    · simp at h2
      obtain ⟨h3, h4⟩ := h2
      subst h3
      simp [Call.error?] at he
      simp [h4, he]
    · simp at h2
  | claimed tried k rest hk =>
    obtain ⟨mid, _, h2⟩ := split_skip (fun x => x.error?.isSome = true) lost_no_error hp hb
    rcases mid with _ | ⟨m, mid⟩
    · simp at h2
      obtain ⟨h3, h4⟩ := h2
      subst h3
      simp [Call.error?] at he
    · simp at h2
  | rescan hm =>
    exact absurd hp (lost_no_error call (by rw [hb]; simp))
  | waitBlocked hm =>
    obtain ⟨mid, _, h2⟩ := split_skip (fun x => x.error?.isSome = true) lost_no_error hp hb
    rcases mid with _ | ⟨m, mid⟩
    · simp at h2
      obtain ⟨h3, h4⟩ := h2
      subst h3
      simp [Call.error?] at he
    · simp at h2
  | waitErr e0 hm =>
    obtain ⟨mid, _, h2⟩ := split_skip (fun x => x.error?.isSome = true) lost_no_error hp hb
    rcases mid with _ | ⟨m, mid⟩
    · simp at h2
      obtain ⟨h3, h4⟩ := h2
      subst h3
      simp [Call.error?] at he
      simp [h4, he]
    · simp at h2
  | wakeErr ev e0 hm =>
    obtain ⟨mid, _, h2⟩ := split_skip (fun x => x.error?.isSome = true) lost_no_error hp hb
    rcases mid with _ | ⟨m, mid⟩
    · simp at h2
      obtain ⟨h3, h4⟩ := h2
      subst h3
      simp [Call.error?] at he
    · simp at h2
      obtain ⟨_, h3⟩ := h2
      rcases mid with _ | ⟨m2, mid⟩
      · simp at h3
        obtain ⟨h4, h5⟩ := h3
        subst h4
        simp [Call.error?] at he
        simp [h5, he]
      · simp at h3
  | wakeLost ev hm =>
    obtain ⟨mid, _, h2⟩ := split_skip (fun x => x.error?.isSome = true) lost_no_error hp hb
    rcases mid with _ | ⟨m, mid⟩
    · simp at h2
      obtain ⟨h3, h4⟩ := h2
      subst h3
      simp [Call.error?] at he
    · simp at h2
      obtain ⟨_, h3⟩ := h2
      rcases mid with _ | ⟨m2, mid⟩
      · simp at h3
        obtain ⟨h4, h5⟩ := h3
        subst h4
        simp [Call.error?] at he
      · simp at h3
  | wakeWon ev hm =>
    obtain ⟨mid, _, h2⟩ := split_skip (fun x => x.error?.isSome = true) lost_no_error hp hb
    rcases mid with _ | ⟨m, mid⟩
    · simp at h2
      obtain ⟨h3, h4⟩ := h2
      subst h3
      simp [Call.error?] at he
    · simp at h2
      obtain ⟨_, h3⟩ := h2
      rcases mid with _ | ⟨m2, mid⟩
      · simp at h3
        obtain ⟨h4, h5⟩ := h3
        subst h4
        simp [Call.error?] at he
      · simp at h3

theorem Run.error_last {pfx : String} {tr : List Call} {o : Outcome} (h : Run pfx tr o) :
    ∀ {pre post : List Call} {call : Call} {e : Error},
      tr = pre ++ call :: post → call.error? = some e →
      o = Outcome.returned "" (some e) ∧ post = [] := by
  induction h with
  | fuel => intro pre post call e h; simp at h
  | getErr e0 =>
    intro pre post call e h he
    rcases pre with _ | ⟨x, pre⟩
    · simp at h
      obtain ⟨h1, h2⟩ := h
      subst h1
      simp [Call.error?] at he
      simp [he, h2]
    · simp at h
  | last resp body o hE =>
    intro pre post call e h he
    rcases pre with _ | ⟨x, pre⟩
    · simp at h
      obtain ⟨h1, _⟩ := h
      subst h1
      simp [Call.error?] at he
    · simp at h
      obtain ⟨h1, h2⟩ := hE.error_at_end h.2 he
      simp at h2
      exact ⟨h2, h1⟩
  | again resp body tr o hE _ ih =>
    intro pre post call e h he
    rcases pre with _ | ⟨x, pre⟩
    · simp at h
      obtain ⟨h1, _⟩ := h
      subst h1
      simp [Call.error?] at he
    · simp at h
      have hb : ∀ a ∈ body, ¬ (a.error?.isSome = true) := by
        intro a ha hs
        obtain ⟨e1, he1⟩ := Option.isSome_iff_exists.mp hs
        obtain ⟨p1, p2, hp⟩ := List.append_of_mem ha
        have := (hE.error_at_end hp he1).2
        simp at this
      obtain ⟨mid, _, h2⟩ := split_skip (fun x => x.error?.isSome = true) hb (by simp [he]) h.2
      exact ih h2 he

theorem lost_no_wait {kvs : List KeyValue} : ∀ x ∈ lost kvs, ¬ (x.isWait = true) := by
  intro x hx
  obtain ⟨k, rfl⟩ := mem_lost hx
  simp [Call.isWait]

theorem lost_no_won {kvs : List KeyValue} : ∀ x ∈ lost kvs, ¬ (x.won = true) := by
  intro x hx
  obtain ⟨k, rfl⟩ := mem_lost hx
  simp [Call.won]

/-- Within one pass, what follows a range read whose claim attempts all lose. -/
theorem Ending.next_after_lost {pfx : String} {resp : GetResponse} {body : List Call}
    {oo : Option Outcome} (h : Ending pfx resp body oo) {post : List Call}
    (hb : body = lost resp.Kvs ++ post) :
    (resp.More = true → post = [] ∧ oo = none) ∧
    (resp.More = false → ∃ r tl,
      post = Call.wait pfx resp.Header.Revision [EventType.PUT] r :: tl) := by
  cases h with
  | claimErr tried k rest e hk => rw [hk] at hb; simp [lost_append, lost_cons] at hb
  | claimed tried k rest hk => rw [hk] at hb; simp [lost_append, lost_cons] at hb
  | rescan hm => simp at hb; simp [hb, hm]
  | waitBlocked hm => simp at hb; simp [← hb, hm]
  | waitErr e hm => simp at hb; simp [← hb, hm]
  | wakeErr ev e hm => simp at hb; simp [← hb, hm]
  | wakeLost ev hm => simp at hb; simp [← hb, hm]
  | wakeWon ev hm => simp at hb; simp [← hb, hm]

/-- In a run, what follows a range read whose claim attempts all lose: a new
range read when the read reported more entries, the watch from the read's
header revision when it did not. -/
theorem Run.after_lost {pfx : String} {tr : List Call} {o : Outcome} (h : Run pfx tr o) :
    ∀ {pre post : List Call} {key : String} {opts : OpOptions} {resp : GetResponse},
      tr = pre ++ Call.get key opts (Res.ok resp) :: (lost resp.Kvs ++ post) →
      (resp.More = true → (post = [] ∧ o = Outcome.outOfFuel) ∨
        ∃ r tl, post = Call.get pfx WithFirstRev r :: tl) ∧
      (resp.More = false → ∃ r tl,
        post = Call.wait pfx resp.Header.Revision [EventType.PUT] r :: tl) := by
  induction h with
  | fuel => intro pre post key opts resp h; simp at h
  | getErr e0 =>
    intro pre post key opts resp h
    rcases pre with _ | ⟨x, pre⟩ <;> simp at h
  | last resp0 body o hE =>
    intro pre post key opts resp h
    rcases pre with _ | ⟨x, pre⟩
    · simp at h
      obtain ⟨⟨_, _, h1⟩, h2⟩ := h
      subst h1
      obtain ⟨h3, h4⟩ := hE.next_after_lost h2
      refine ⟨fun hm => ?_, h4⟩
      have := (h3 hm).2
      simp at this
    · simp at h
      obtain ⟨_, h2⟩ := h
      exact absurd (by simp [Call.isGet]) (hE.no_get (Call.get key opts (Res.ok resp))
        (by rw [h2]; simp))
  | again resp0 body tr o hE hR ih =>
    intro pre post key opts resp h
    rcases pre with _ | ⟨x, pre⟩
    · simp at h
      obtain ⟨⟨_, _, h1⟩, h2⟩ := h
      subst h1
      cases hE with
      | rescan hm =>
        simp at h2
        subst h2
        simp [hm]
        rcases hR.head with ⟨h5, h6⟩ | ⟨r, tl, h5⟩
        · exact Or.inl ⟨h5, h6⟩
        · exact Or.inr ⟨r, tl, h5⟩
      | wakeLost ev hm =>
        simp at h2
        simp [← h2, hm]
    · simp at h
      obtain ⟨_, h2⟩ := h
      obtain ⟨mid, _, h3⟩ := split_skip (fun x => x.isGet = true) hE.no_get
        (by simp [Call.isGet]) h2
      exact ih h3

/-- Within one pass, a lost claim after a wake ends the pass with
`return q.Dequeue()`. -/
theorem Ending.wake_lost_ends {pfx : String} {resp : GetResponse} {body : List Call}
    {oo : Option Outcome} (h : Ending pfx resp body oo) {pre post : List Call}
    {p : String} {r : Int} {evs : List EventType} {ev : Event} {key : String} {rev : Int}
    (hb : body = pre ++ Call.wait p r evs (some (Res.ok ev)) ::
      Call.del key rev (Res.ok false) :: post) :
    post = [] ∧ oo = none ∧ key = ev.Kv.Key ∧ rev = ev.Kv.ModRevision ∧
      pre = lost resp.Kvs := by
  have hp : (Call.wait p r evs (some (Res.ok ev))).isWait = true := by simp [Call.isWait]
  cases h with
  | claimErr tried k rest e0 hk =>
    obtain ⟨mid, _, h2⟩ := split_skip (fun x => x.isWait = true) lost_no_wait hp hb
    rcases mid with _ | ⟨m, mid⟩ <;> simp at h2
  | claimed tried k rest hk =>
    obtain ⟨mid, _, h2⟩ := split_skip (fun x => x.isWait = true) lost_no_wait hp hb
    rcases mid with _ | ⟨m, mid⟩ <;> simp at h2
  | rescan hm =>
    exact absurd hp (lost_no_wait _ (by rw [hb]; simp))
  | waitBlocked hm =>
    obtain ⟨mid, _, h2⟩ := split_skip (fun x => x.isWait = true) lost_no_wait hp hb
    rcases mid with _ | ⟨m, mid⟩ <;> simp at h2
  | waitErr e0 hm =>
    obtain ⟨mid, _, h2⟩ := split_skip (fun x => x.isWait = true) lost_no_wait hp hb
    rcases mid with _ | ⟨m, mid⟩ <;> simp at h2
  | wakeErr ev0 e0 hm =>
    obtain ⟨mid, _, h2⟩ := split_skip (fun x => x.isWait = true) lost_no_wait hp hb
    rcases mid with _ | ⟨m, mid⟩
    · simp at h2
    · simp at h2
      obtain ⟨_, h3⟩ := h2
      rcases mid with _ | ⟨m2, mid⟩ <;> simp at h3
  | wakeLost ev0 hm =>
    obtain ⟨mid, h1, h2⟩ := split_skip (fun x => x.isWait = true) lost_no_wait hp hb
    rcases mid with _ | ⟨m, mid⟩
    · simp at h2
      obtain ⟨⟨_, _, _, h3⟩, ⟨h4, h5⟩, h6⟩ := h2
      subst h3
      simp [h4, h5, h6, h1]
    · simp at h2
      obtain ⟨_, h3⟩ := h2
      rcases mid with _ | ⟨m2, mid⟩ <;> simp at h3
  | wakeWon ev0 hm =>
    obtain ⟨mid, _, h2⟩ := split_skip (fun x => x.isWait = true) lost_no_wait hp hb
    rcases mid with _ | ⟨m, mid⟩
    · simp at h2
    · simp at h2
      obtain ⟨_, h3⟩ := h2
      rcases mid with _ | ⟨m2, mid⟩ <;> simp at h3

/-- In a run, what follows a lost claim after a wake is a run of `Dequeue` from
its first line. -/
theorem Run.after_wake_lost {pfx : String} {tr : List Call} {o : Outcome} (h : Run pfx tr o) :
    ∀ {pre post : List Call} {p : String} {r : Int} {evs : List EventType} {ev : Event}
      {key : String} {rev : Int},
      tr = pre ++ Call.wait p r evs (some (Res.ok ev)) ::
        Call.del key rev (Res.ok false) :: post →
      (key = ev.Kv.Key ∧ rev = ev.Kv.ModRevision) ∧ Run pfx post o := by
  induction h with
  | fuel => intro pre post p r evs ev key rev h; simp at h
  | getErr e0 =>
    intro pre post p r evs ev key rev h
    rcases pre with _ | ⟨x, pre⟩ <;> simp at h
  | last resp0 body o hE =>
    intro pre post p r evs ev key rev h
    rcases pre with _ | ⟨x, pre⟩
    · simp at h
    · simp at h
      have := (hE.wake_lost_ends h.2).2.1
      simp at this
  | again resp0 body tr o hE hR ih =>
    intro pre post p r evs ev key rev h
    rcases pre with _ | ⟨x, pre⟩
    · simp at h
    · simp at h
      obtain ⟨_, h2⟩ := h
      have hp : (Call.wait p r evs (some (Res.ok ev))).isWait = true := by simp [Call.isWait]
      cases hE with
      | rescan hm =>
        obtain ⟨mid, _, h3⟩ := split_skip (fun x => x.isWait = true) lost_no_wait hp h2
        exact ih h3
      | wakeLost ev0 hm =>
        rw [List.append_assoc] at h2
        obtain ⟨mid, _, h3⟩ := split_skip (fun x => x.isWait = true) lost_no_wait hp h2
        rcases mid with _ | ⟨m, mid⟩
        · simp at h3
          obtain ⟨⟨_, _, _, h4⟩, ⟨h5, h6⟩, h7⟩ := h3
          subst h4 h7
          exact ⟨⟨h5.symm, h6.symm⟩, hR⟩
        · simp at h3
          obtain ⟨_, h4⟩ := h3
          rcases mid with _ | ⟨m2, mid⟩
          · simp at h4
          · simp at h4
            exact ih h4.2

/-- Within one pass, a wait comes right after the lost claim attempts on the
entries of the range read, on the queue namespace, from the header revision of
that read, for PUT events only. -/
theorem Ending.wait_at {pfx : String} {resp : GetResponse} {body : List Call}
    {oo : Option Outcome} (h : Ending pfx resp body oo) {pre post : List Call}
    {p : String} {r : Int} {evs : List EventType} {x : Option (Res Event)}
    (hb : body = pre ++ Call.wait p r evs x :: post) :
    pre = lost resp.Kvs ∧ p = pfx ∧ r = resp.Header.Revision ∧ evs = [EventType.PUT] := by
  have hp : (Call.wait p r evs x).isWait = true := by simp [Call.isWait]
  cases h with
  | claimErr tried k rest e0 hk =>
    obtain ⟨mid, _, h2⟩ := split_skip (fun x => x.isWait = true) lost_no_wait hp hb
    rcases mid with _ | ⟨m, mid⟩ <;> simp at h2
  | claimed tried k rest hk =>
    obtain ⟨mid, _, h2⟩ := split_skip (fun x => x.isWait = true) lost_no_wait hp hb
    rcases mid with _ | ⟨m, mid⟩ <;> simp at h2
  | rescan hm =>
    exact absurd hp (lost_no_wait _ (by rw [hb]; simp))
  | waitBlocked hm =>
    obtain ⟨mid, h1, h2⟩ := split_skip (fun x => x.isWait = true) lost_no_wait hp hb
    rcases mid with _ | ⟨m, mid⟩
    · simp at h2
      obtain ⟨⟨h3, h4, h5, _⟩, _⟩ := h2
      exact ⟨by simpa using h1, h3.symm, h4.symm, h5.symm⟩
    · simp at h2
  | waitErr e0 hm =>
    obtain ⟨mid, h1, h2⟩ := split_skip (fun x => x.isWait = true) lost_no_wait hp hb
    rcases mid with _ | ⟨m, mid⟩
    · simp at h2
      obtain ⟨⟨h3, h4, h5, _⟩, _⟩ := h2
      exact ⟨by simpa using h1, h3.symm, h4.symm, h5.symm⟩
    · simp at h2
  | wakeErr ev0 e0 hm =>
    obtain ⟨mid, h1, h2⟩ := split_skip (fun x => x.isWait = true) lost_no_wait hp hb
    rcases mid with _ | ⟨m, mid⟩
    · simp at h2
      obtain ⟨⟨h3, h4, h5, _⟩, _⟩ := h2
      exact ⟨by simpa using h1, h3.symm, h4.symm, h5.symm⟩
    · simp at h2
      obtain ⟨_, h3⟩ := h2
      rcases mid with _ | ⟨m2, mid⟩ <;> simp at h3
  | wakeLost ev0 hm =>
    obtain ⟨mid, h1, h2⟩ := split_skip (fun x => x.isWait = true) lost_no_wait hp hb
    rcases mid with _ | ⟨m, mid⟩
    · simp at h2
      obtain ⟨⟨h3, h4, h5, _⟩, _⟩ := h2
      exact ⟨by simpa using h1, h3.symm, h4.symm, h5.symm⟩
    · simp at h2
      obtain ⟨_, h3⟩ := h2
      rcases mid with _ | ⟨m2, mid⟩ <;> simp at h3
  | wakeWon ev0 hm =>
    obtain ⟨mid, h1, h2⟩ := split_skip (fun x => x.isWait = true) lost_no_wait hp hb
    rcases mid with _ | ⟨m, mid⟩
    · simp at h2
      obtain ⟨⟨h3, h4, h5, _⟩, _⟩ := h2
      exact ⟨by simpa using h1, h3.symm, h4.symm, h5.symm⟩
    · simp at h2
      obtain ⟨_, h3⟩ := h2
      rcases mid with _ | ⟨m2, mid⟩ <;> simp at h3

/-- In a run, every wait comes right after a range read and the lost claim
attempts on its entries, and it starts from the header revision of that
read. -/
theorem Run.wait_after_read {pfx : String} {tr : List Call} {o : Outcome} (h : Run pfx tr o) :
    ∀ {pre post : List Call} {p : String} {r : Int} {evs : List EventType}
      {x : Option (Res Event)},
      tr = pre ++ Call.wait p r evs x :: post →
      ∃ pre0 resp, pre = pre0 ++ Call.get pfx WithFirstRev (Res.ok resp) :: lost resp.Kvs ∧
        p = pfx ∧ r = resp.Header.Revision ∧ evs = [EventType.PUT] := by
  induction h with
  | fuel => intro pre post p r evs x h; simp at h
  | getErr e0 =>
    intro pre post p r evs x h
    rcases pre with _ | ⟨y, pre⟩ <;> simp at h
  | last resp0 body o hE =>
    intro pre post p r evs x h
    rcases pre with _ | ⟨y, pre⟩
    · simp at h
    · simp at h
      obtain ⟨h1, h2⟩ := h
      obtain ⟨h3, h4, h5, h6⟩ := hE.wait_at h2
      exact ⟨[], resp0, by simp [← h1, h3], h4, h5, h6⟩
  | again resp0 body tr o hE hR ih =>
    intro pre post p r evs x h
    rcases pre with _ | ⟨y, pre⟩
    · simp at h
    · simp at h
      obtain ⟨h1, h2⟩ := h
      rcases List.append_eq_append_iff.mp h2 with ⟨a, h3, h4⟩ | ⟨c, h3, h4⟩
      · obtain ⟨pre0, resp, h5, h6⟩ := ih h4
        exact ⟨Call.get pfx WithFirstRev (Res.ok resp0) :: (body ++ pre0), resp,
          by simp [← h1, h3, h5], h6⟩
      · rcases c with _ | ⟨w, c⟩
        · simp at h3 h4
          obtain ⟨pre0, resp, h5, h6⟩ := @ih [] post p r evs x (by simpa using h4.symm)
          simp at h5
        · simp at h4
          obtain ⟨h5, _⟩ := h4
          subst h5
          obtain ⟨h6, h7, h8, h9⟩ := hE.wait_at h3
          exact ⟨[], resp0, by simp [← h1, h6], h7, h8, h9⟩

/-- A run that returns a value ends with a successful conditional delete on an
entry that a range read returned or a watch event delivered. -/
theorem Run.returns_claimed {pfx : String} {tr : List Call} {o : Outcome} (h : Run pfx tr o) :
    ∀ {v : String}, o = Outcome.returned v none →
      ∃ pre kv, tr = pre ++ [Call.del kv.Key kv.ModRevision (Res.ok true)] ∧ kv.Value = v ∧
        ((∃ key opts resp, Call.get key opts (Res.ok resp) ∈ pre ∧ kv ∈ resp.Kvs) ∨
         (∃ p rev evs ev, Call.wait p rev evs (some (Res.ok ev)) ∈ pre ∧ ev.Kv = kv)) := by
  induction h with
  | fuel => intro v h; simp at h
  | getErr e0 => intro v h; simp at h
  | last resp body o hE =>
    intro v ho
    subst ho
    generalize hoo : some (Outcome.returned v none) = oo at hE
    cases hE with
    | claimErr tried k rest e hk => simp at hoo
    | claimed tried k rest hk =>
      simp at hoo
      exact ⟨Call.get pfx WithFirstRev (Res.ok resp) :: lost tried, k, by simp, hoo.symm,
        Or.inl ⟨pfx, WithFirstRev, resp, by simp, by simp [hk]⟩⟩
    | rescan hm => simp at hoo
    | waitBlocked hm => simp at hoo
    | waitErr e hm => simp at hoo
    | wakeErr ev e hm => simp at hoo
    | wakeLost ev hm => simp at hoo
    | wakeWon ev hm =>
      simp at hoo
      exact ⟨Call.get pfx WithFirstRev (Res.ok resp) :: (lost resp.Kvs ++
          [Call.wait pfx resp.Header.Revision [EventType.PUT] (some (Res.ok ev))]),
        ev.Kv, by simp, hoo.symm,
        Or.inr ⟨pfx, resp.Header.Revision, [EventType.PUT], ev, by simp, rfl⟩⟩
  | again resp body tr o hE _ ih =>
    intro v ho
    obtain ⟨pre, kv, h1, h2, h3⟩ := ih ho
    refine ⟨Call.get pfx WithFirstRev (Res.ok resp) :: (body ++ pre), kv, by simp [h1], h2, ?_⟩
    rcases h3 with ⟨key, opts, r, h4, h5⟩ | ⟨p, rev, evs, ev, h4, h5⟩
    · exact Or.inl ⟨key, opts, r, by simp [h4], h5⟩
    · exact Or.inr ⟨p, rev, evs, ev, by simp [h4], h5⟩

/-- A run that returns an error made no successful conditional delete. -/
theorem Run.error_not_won {pfx : String} {tr : List Call} {o : Outcome} (h : Run pfx tr o) :
    ∀ {v : String} {e : Error}, o = Outcome.returned v (some e) →
      ∀ x ∈ tr, ¬ (x.won = true) := by
  induction h with
  | fuel => intro v e _ x hx; simp at hx
  | getErr e0 =>
    intro v e _ x hx
    simp at hx
    subst hx
    simp [Call.won]
  | last resp body o hE =>
    intro v e ho x hx
    subst ho
    simp at hx
    rcases hx with rfl | hx
    · simp [Call.won]
    generalize hoo : some (Outcome.returned v (some e)) = oo at hE
    cases hE with
    | claimErr tried k rest e hk =>
      simp at hx
      rcases hx with hx | rfl
      · exact lost_no_won x hx
      · simp [Call.won]
    | claimed tried k rest hk => simp at hoo
    | rescan hm => simp at hoo
    | waitBlocked hm => simp at hoo
    | waitErr e hm =>
      simp at hx
      rcases hx with hx | rfl
      · exact lost_no_won x hx
      · simp [Call.won]
    | wakeErr ev e hm =>
      simp at hx
      rcases hx with hx | rfl | rfl
      · exact lost_no_won x hx
      · simp [Call.won]
      · simp [Call.won]
    | wakeLost ev hm => simp at hoo
    | wakeWon ev hm => simp at hoo
  | again resp body tr o hE _ ih =>
    intro v e ho x hx
    simp at hx
    rcases hx with rfl | hx | hx
    · simp [Call.won]
    · cases hE with
      | rescan hm => exact lost_no_won x hx
      | wakeLost ev hm =>
        simp at hx
        rcases hx with hx | rfl | rfl
        · exact lost_no_won x hx
        · simp [Call.won]
        · simp [Call.won]
    · exact ih ho x hx

/-! ## The modelled store -/

theorem keyLt_iff {a b : String} : keyLt a b = true ↔ a < b := by
  simp [keyLt]

theorem keyLt_irrefl (a : String) : ¬ (keyLt a a = true) := by
  rw [keyLt_iff]
  exact lt_irrefl a

theorem keyLt_trans {a b c : String} (h1 : keyLt a b = true) (h2 : keyLt b c = true) :
    keyLt a c = true := by
  rw [keyLt_iff] at *
  exact lt_trans h1 h2

theorem keyLt_of_not {a b : String} (h1 : ¬ (keyLt a b = true)) (h2 : a ≠ b) :
    keyLt b a = true := by
  rw [keyLt_iff] at *
  exact lt_of_le_of_ne (not_lt.mp h1) (Ne.symm h2)

theorem mem_insertKV {kv y : KeyValue} {l : List KeyValue} (h : y ∈ insertKV kv l) :
    y = kv ∨ y ∈ l := by
  induction l with
  | nil => simpa [insertKV] using h
  | cons x xs ih =>
    simp only [insertKV] at h
    split at h
    · simpa using h
    · split at h
      · simp at h
        rcases h with h | h
        · exact Or.inl h
        · exact Or.inr (by simp [h])
      · simp at h
        rcases h with h | h
        · exact Or.inr (by simp [h])
        · rcases ih h with h | h
          · exact Or.inl h
          · exact Or.inr (by simp [h])

theorem insertKV_sorted {kv : KeyValue} {l : List KeyValue}
    (h : l.Pairwise (fun a b => keyLt a.Key b.Key = true)) :
    (insertKV kv l).Pairwise (fun a b => keyLt a.Key b.Key = true) := by
  induction l with
  | nil => simp [insertKV]
  | cons x xs ih =>
    rw [List.pairwise_cons] at h
    simp only [insertKV]
    split
    · rename_i hlt
      refine List.pairwise_cons.mpr ⟨?_, List.pairwise_cons.mpr h⟩
      intro y hy
      simp at hy
      rcases hy with rfl | hy
      · exact hlt
      · exact keyLt_trans hlt (h.1 y hy)
    · rename_i hlt
      split
      · rename_i heq
        refine List.pairwise_cons.mpr ⟨?_, h.2⟩
        intro y hy
        rw [heq]
        exact h.1 y hy
      · rename_i hne
        refine List.pairwise_cons.mpr ⟨?_, ih h.2⟩
        intro y hy
        rcases mem_insertKV hy with rfl | hy
        · exact keyLt_of_not hlt hne
        · exact h.1 y hy

theorem put_sorted {s : Store} (h : s.Sorted) (key val : String) : (s.put key val).Sorted :=
  insertKV_sorted h

theorem deleteRev_sorted {s : Store} (h : s.Sorted) (key : String) (rev : Int) :
    (s.deleteRev key rev).1.Sorted := by
  unfold Store.deleteRev
  split
  · split
    · exact List.Pairwise.filter _ h
    · exact h
  · exact h

theorem apply_sorted (keyFor : KeyFormat) {s : Store} (h : s.Sorted) (a : Action) :
    (a.apply keyFor s).Sorted := by
  cases a with
  | put key val => exact put_sorted h key val
  | enqueue pfx val => exact put_sorted h _ val
  | delete key rev => exact deleteRev_sorted h key rev

theorem find_of_sorted {l : List KeyValue} {e : KeyValue}
    (h : l.Pairwise (fun a b => keyLt a.Key b.Key = true)) (he : e ∈ l) :
    l.find? (fun kv => decide (kv.Key = e.Key)) = some e := by
  induction l with
  | nil => simp at he
  | cons x xs ih =>
    rw [List.pairwise_cons] at h
    simp at he
    rcases he with rfl | he
    · simp
    · have hlt := h.1 e he
      have hne : x.Key ≠ e.Key := by
        intro heq
        rw [heq] at hlt
        exact keyLt_irrefl _ hlt
      simp [List.find?, hne]
      exact ih h.2 he

theorem find_none_of_not_mem {l : List KeyValue} {key : String}
    (h : ∀ x ∈ l, x.Key ≠ key) : l.find? (fun kv => decide (kv.Key = key)) = none := by
  simp
  exact h

/-- Writing a key of the namespace that is above all keys of the namespace puts
the new entry at the end of the namespace. -/
theorem filter_insertKV (p : String → Bool) {kv : KeyValue} {l : List KeyValue}
    (h : l.Pairwise (fun a b => keyLt a.Key b.Key = true))
    (hlt : ∀ x ∈ l, p x.Key = true → keyLt x.Key kv.Key = true) (hp : p kv.Key = true) :
    (insertKV kv l).filter (fun x => p x.Key) = l.filter (fun x => p x.Key) ++ [kv] := by
  induction l with
  | nil => simp [insertKV, hp]
  | cons x xs ih =>
    rw [List.pairwise_cons] at h
    have hxs : ∀ y ∈ xs, p y.Key = true → keyLt y.Key kv.Key = true :=
      fun y hy => hlt y (by simp [hy])
    simp only [insertKV]
    split
    · rename_i hk
      have hnone : ∀ y ∈ x :: xs, ¬ (p y.Key = true) := by
        intro y hy hpy
        have h1 := hlt y hy hpy
        have h2 : keyLt kv.Key y.Key = true := by
          simp at hy
          rcases hy with rfl | hy
          · exact hk
          · exact keyLt_trans hk (h.1 y hy)
        exact keyLt_irrefl _ (keyLt_trans h1 h2)
      have : (x :: xs).filter (fun x => p x.Key) = [] := by
        rw [List.filter_eq_nil_iff]
        exact hnone
      rw [List.filter_cons, this]
      simp [hp]
    · split
      · rename_i heq
        have hpx : p x.Key = true := by rw [← heq]; exact hp
        have := hlt x (by simp) hpx
        rw [heq] at this
        exact absurd this (keyLt_irrefl _)
      · rw [List.filter_cons, List.filter_cons, ih h.2 hxs]
        split <;> simp

theorem view_sorted {s : Store} (h : s.Sorted) (pfx : String) :
    (s.view pfx).Pairwise (fun a b => keyLt a.Key b.Key = true) :=
  List.Pairwise.filter _ h

theorem mem_of_mem_view {s : Store} {pfx : String} {e : KeyValue} (h : e ∈ s.view pfx) :
    e ∈ s.Kvs := by
  simp [Store.view] at h
  exact h.1

theorem filter_ne_eq_erase {l : List KeyValue} {e : KeyValue}
    (hl : l.Pairwise (fun a b => keyLt a.Key b.Key = true)) (he : e ∈ l) :
    l.filter (fun x => !decide (x.Key = e.Key)) = l.erase e := by
  induction l with
  | nil => simp
  | cons x xs ih =>
    rw [List.pairwise_cons] at hl
    by_cases hxe : x = e
    · subst hxe
      have : xs.filter (fun y => !decide (y.Key = x.Key)) = xs := by
        rw [List.filter_eq_self]
        intro y hy
        have := hl.1 y hy
        simp
        intro heq
        rw [heq] at this
        exact keyLt_irrefl _ this
      simp [List.filter_cons, this]
    · have hin : e ∈ xs := by
        simp at he
        rcases he with rfl | he
        · exact absurd rfl hxe
        · exact he
      have hne : x.Key ≠ e.Key := by
        intro heq
        have := hl.1 e hin
        rw [heq] at this
        exact keyLt_irrefl _ this
      rw [List.filter_cons, List.erase_cons]
      simp [hne, hxe, ih hl.2 hin]

/-- The conditional delete of the oldest entry of a namespace succeeds and
leaves the rest of the namespace. -/
theorem deleteRev_head {s : Store} {pfx : String} {e : KeyValue} {rest : List KeyValue}
    (h : s.Sorted) (hv : s.view pfx = e :: rest) :
    s.deleteRev e.Key e.ModRevision =
      ({ Revision := s.Revision + 1
         Kvs := s.Kvs.erase e
         Events := s.Events ++ [⟨EventType.DELETE, ⟨e.Key, "", s.Revision + 1⟩⟩] }, true) ∧
    (s.deleteRev e.Key e.ModRevision).1.view pfx = rest := by
  have hmem : e ∈ s.Kvs := mem_of_mem_view (by rw [hv]; simp)
  have hdel : s.deleteRev e.Key e.ModRevision =
      ({ Revision := s.Revision + 1
         Kvs := s.Kvs.erase e
         Events := s.Events ++ [⟨EventType.DELETE, ⟨e.Key, "", s.Revision + 1⟩⟩] }, true) := by
    unfold Store.deleteRev
    rw [find_of_sorted h hmem]
    simp [filter_ne_eq_erase h hmem]
  refine ⟨hdel, ?_⟩
  rw [hdel]
  simp only [Store.view]
  rw [← filter_ne_eq_erase h hmem, List.filter_filter]
  have : s.Kvs.filter (fun a => underPrefix pfx a.Key && !decide (a.Key = e.Key))
      = (s.view pfx).filter (fun a => !decide (a.Key = e.Key)) := by
    simp only [Store.view, List.filter_filter]
    congr 1
    funext a
    exact Bool.and_comm _ _
  rw [this, hv]
  have hp := view_sorted h pfx
  rw [hv, List.pairwise_cons] at hp
  rw [List.filter_cons]
  simp
  intro y hy heq
  have := hp.1 y hy
  rw [heq] at this
  exact keyLt_irrefl _ this

/-! ## Serial runs: first in, first out -/

/-- With no other client, `Dequeue` on a non-empty namespace claims the oldest
entry and returns its value. -/
theorem dequeue_head (keyFor : KeyFormat) {s : Store} {pfx : String} {e : KeyValue}
    {rest : List KeyValue} (fuel : Nat) (h : s.Sorted) (hv : s.view pfx = e :: rest) :
    (NewQueue (worldClient keyFor) pfx).Dequeue (fuel + 1) ⟨s, []⟩ =
      (⟨(s.deleteRev e.Key e.ModRevision).1, []⟩, Outcome.returned e.Value none) := by
  have hd := (deleteRev_head h hv).1
  simp [Queue.Dequeue, NewQueue, worldClient, advance, Store.range, hv, claimFirstKey,
    WithFirstRev, hd]

/-- With no other client, `Enqueue` writes the value under the key formed from
the next revision and returns no error. -/
theorem enqueue_serial (keyFor : KeyFormat) (s : Store) (pfx v : String) :
    (NewQueue (worldClient keyFor) pfx).Enqueue v ⟨s, []⟩ =
      (⟨s.put (keyFor pfx (s.Revision + 1)) v, []⟩, none) := by
  simp [Queue.Enqueue, NewQueue, worldClient, advance]

theorem enqueueAll_serial (keyFor : KeyFormat) (pfx : String) (lo : Int) (vs : List String) :
    ∀ (s : Store) (es : List KeyValue), s.Sorted → s.view pfx = es → lo ≤ s.Revision →
      (∀ e ∈ es, ∃ r, lo < r ∧ r ≤ s.Revision ∧ e.Key = keyFor pfx r) →
      keyFor.Ordered pfx lo (s.Revision + vs.length) →
      ∃ s1 es1, enqueueAll (NewQueue (worldClient keyFor) pfx) vs ⟨s, []⟩
          = (⟨s1, []⟩, vs.map (fun _ => none)) ∧
        s1.Sorted ∧ s1.view pfx = es ++ es1 ∧ es1.map (fun e => e.Value) = vs := by
  induction vs with
  | nil =>
    intro s es hs hv _ _ _
    exact ⟨s, [], by simp [enqueueAll], hs, by simp [hv], rfl⟩
  | cons v vs ih =>
    intro s es hs hv hlo hkeys hord
    have hlen : s.Revision + ((v :: vs).length : Int) = (s.Revision + 1) + (vs.length : Int) := by
      simp only [List.length_cons]
      push_cast
      ring
    rw [hlen] at hord
    have hnew : (s.put (keyFor pfx (s.Revision + 1)) v).view pfx =
        es ++ [⟨keyFor pfx (s.Revision + 1), v, s.Revision + 1⟩] := by
      rw [← hv]
      refine filter_insertKV (fun k => underPrefix pfx k) hs ?_ ?_
      · intro x hx hpx
        have hxv : x ∈ es := by
          rw [← hv]
          simp [Store.view, hx, hpx]
        obtain ⟨r, h1, h2, h3⟩ := hkeys x hxv
        rw [h3]
        exact hord.2 r (s.Revision + 1) h1 (by omega) (by omega)
      · exact hord.1 (s.Revision + 1) (by omega) (by omega)
    obtain ⟨s1, es1, h1, h2, h3, h4⟩ := ih (s.put (keyFor pfx (s.Revision + 1)) v)
      (es ++ [⟨keyFor pfx (s.Revision + 1), v, s.Revision + 1⟩])
      (put_sorted hs _ _) hnew (by simp [Store.put]; omega)
      (by
        intro e he
        simp at he
        rcases he with he | rfl
        · obtain ⟨r, h1, h2, h3⟩ := hkeys e he
          exact ⟨r, h1, by simp [Store.put]; omega, h3⟩
        · exact ⟨s.Revision + 1, by omega, by simp [Store.put], rfl⟩)
      (by simpa [Store.put] using hord)
    refine ⟨s1, ⟨keyFor pfx (s.Revision + 1), v, s.Revision + 1⟩ :: es1, ?_, h2, ?_, ?_⟩
    · simp only [enqueueAll, enqueue_serial, h1]
      simp
    · simp [h3]
    · simp [h4]

theorem dequeueAll_serial (keyFor : KeyFormat) (pfx : String) (fuel : Nat) :
    ∀ (es : List KeyValue) (s : Store), s.Sorted → s.view pfx = es →
      ∃ s1, dequeueAll (NewQueue (worldClient keyFor) pfx) (fuel + 1) es.length ⟨s, []⟩
          = (⟨s1, []⟩, es.map (fun e => Outcome.returned e.Value none)) ∧
        s1.Sorted ∧ s1.view pfx = [] := by
  intro es
  induction es with
  | nil =>
    intro s hs hv
    exact ⟨s, by simp [dequeueAll], hs, hv⟩
  | cons e rest ih =>
    intro s hs hv
    obtain ⟨s1, h1, h2, h3⟩ := ih (s.deleteRev e.Key e.ModRevision).1
      (deleteRev_sorted hs _ _) (deleteRev_head hs hv).2
    refine ⟨s1, ?_, h2, h3⟩
    simp only [List.length_cons, dequeueAll, dequeue_head keyFor fuel hs hv, h1]
    simp

/-- C1.  Serial FIFO: on a store whose namespace `pfx` starts empty, with no
other client, `Enqueue(v1)`, ..., `Enqueue(vn)` all succeed and the `n` calls
of `Dequeue` that follow return `(v1, nil)`, ..., `(vn, nil)` in this order,
for every recursion budget of at least one. -/
theorem serial_fifo (keyFor : KeyFormat) (pfx : String) (s : Store) (vs : List String)
    (fuel : Nat) (hs : s.Sorted) (hempty : s.view pfx = [])
    (hord : keyFor.Ordered pfx s.Revision (s.Revision + vs.length)) :
    (enqueueAll (NewQueue (worldClient keyFor) pfx) vs ⟨s, []⟩).2 = vs.map (fun _ => none) ∧
    (dequeueAll (NewQueue (worldClient keyFor) pfx) (fuel + 1) vs.length
        (enqueueAll (NewQueue (worldClient keyFor) pfx) vs ⟨s, []⟩).1).2
      = vs.map (fun v => Outcome.returned v none) := by
  obtain ⟨s1, es1, h1, h2, h3, h4⟩ := enqueueAll_serial keyFor pfx s.Revision vs s []
    hs hempty (le_refl _) (by simp) hord
  simp only [List.nil_append] at h3
  obtain ⟨s2, h5, _, _⟩ := dequeueAll_serial keyFor pfx fuel es1 s1 h2 h3
  have hlen : vs.length = es1.length := by rw [← h4]; simp
  rw [h1, hlen]
  simp only
  rw [h5]
  simp [← h4]

/-- A run for C1: `Enqueue("a")`, `Enqueue("b")` on the empty store, then two
calls of `Dequeue`. -/
theorem serial_fifo_witness :
    (enqueueAll (NewQueue (worldClient paddedKey) "q") ["a", "b"] ⟨⟨0, [], []⟩, []⟩).2
      = [none, none] ∧
    (dequeueAll (NewQueue (worldClient paddedKey) "q") 1 2
        (enqueueAll (NewQueue (worldClient paddedKey) "q") ["a", "b"] ⟨⟨0, [], []⟩, []⟩).1).2
      = [Outcome.returned "a" none, Outcome.returned "b" none] :=
  serial_fifo paddedKey "q" ⟨0, [], []⟩ ["a", "b"] 0
    (by simp [Store.Sorted]) (by decide)
    ⟨fun a h1 h2 => by
        simp at h1 h2
        interval_cases a <;> decide,
      fun a b h1 h2 h3 => by
        simp at h1 h3
        have h4 : a ≤ 1 := by omega
        have h5 : 2 ≤ b := by omega
        interval_cases a
        interval_cases b
        decide⟩

/-! ## Calls served among the actions of other clients -/

theorem actions_append (u v : List Tick) : actions (u ++ v) = actions u ++ actions v := by
  induction u with
  | nil => simp [actions]
  | cons t u ih => cases t <;> simp [actions, ih]

theorem replay_append (keyFor : KeyFormat) (a b : List Action) (s : Store) :
    replay keyFor (a ++ b) s = replay keyFor b (replay keyFor a s) := by
  induction a generalizing s with
  | nil => simp [replay]
  | cons x a ih => simp [replay, ih]

theorem EnvOnly.refl (keyFor : KeyFormat) (w : World) : EnvOnly keyFor w w :=
  ⟨[], by simp, by simp [actions, replay]⟩

theorem EnvOnly.trans {keyFor : KeyFormat} {a b c : World} (h1 : EnvOnly keyFor a b)
    (h2 : EnvOnly keyFor b c) : EnvOnly keyFor a c := by
  obtain ⟨u1, hs1, hr1⟩ := h1
  obtain ⟨u2, hs2, hr2⟩ := h2
  exact ⟨u1 ++ u2, by rw [hs1, hs2, List.append_assoc],
    by rw [hr2, hr1, actions_append, replay_append]⟩

theorem actions_of_noActs {u : List Tick} (h : noActs u) : actions u = [] := by
  induction u with
  | nil => simp [actions]
  | cons t u ih =>
    have hu : noActs u := fun a ha => h a (by simp [ha])
    cases t with
    | act a => exact absurd (by simp) (h a)
    | turn => simp [actions, ih hu]
    | fault e => simp [actions, ih hu]

/-- When no other client acts, a step that changes the store only through the
other clients leaves the store as it is. -/
theorem EnvOnly.of_noActs {keyFor : KeyFormat} {w w1 : World} (h : EnvOnly keyFor w w1)
    (hn : noActs w.script) : w1.store = w.store ∧ noActs w1.script := by
  obtain ⟨u, hs, hr⟩ := h
  have hu : noActs u := fun a ha => hn a (by rw [hs]; simp [ha])
  refine ⟨by rw [hr, actions_of_noActs hu]; simp [replay], ?_⟩
  intro a ha
  exact hn a (by rw [hs]; simp [ha])

theorem advance_envOnly (keyFor : KeyFormat) (script : List Tick) (s : Store) :
    EnvOnly keyFor ⟨s, script⟩ (advance keyFor script s).1 := by
  induction script generalizing s with
  | nil => exact ⟨[], by simp [advance], by simp [advance, actions, replay]⟩
  | cons t rest ih =>
    cases t with
    | act a =>
      obtain ⟨u, h1, h2⟩ := ih (a.apply keyFor s)
      exact ⟨Tick.act a :: u, by simp [advance] at h1 ⊢; exact h1,
        by simp [advance, actions, replay] at h2 ⊢; exact h2⟩
    | turn => exact ⟨[Tick.turn], by simp [advance], by simp [advance, actions, replay]⟩
    | fault e => exact ⟨[Tick.fault e], by simp [advance], by simp [advance, actions, replay]⟩

theorem advance_sorted (keyFor : KeyFormat) (script : List Tick) (s : Store) (h : s.Sorted) :
    (advance keyFor script s).1.store.Sorted := by
  induction script generalizing s with
  | nil => simpa [advance] using h
  | cons t rest ih =>
    cases t with
    | act a => simpa [advance] using ih _ (apply_sorted keyFor h a)
    | turn => simpa [advance] using h
    | fault e => simpa [advance] using h

theorem awaitEvent_envOnly (keyFor : KeyFormat) (pfx : String) (rev : Int)
    (evs : List EventType) (script : List Tick) (s : Store) :
    EnvOnly keyFor ⟨s, script⟩ (awaitEvent keyFor pfx rev evs script s).1 := by
  induction script generalizing s with
  | nil =>
    unfold awaitEvent
    split <;> exact EnvOnly.refl keyFor _
  | cons t rest ih =>
    cases t with
    | act a =>
      unfold awaitEvent
      split
      · exact EnvOnly.refl keyFor _
      · obtain ⟨u, h1, h2⟩ := ih (a.apply keyFor s)
        exact ⟨Tick.act a :: u, by simp at h1 ⊢; exact h1,
          by simp [actions, replay] at h2 ⊢; exact h2⟩
    | turn =>
      unfold awaitEvent
      split
      · exact EnvOnly.refl keyFor _
      · obtain ⟨u, h1, h2⟩ := ih s
        exact ⟨Tick.turn :: u, by simp at h1 ⊢; exact h1,
          by simp [actions] at h2 ⊢; exact h2⟩
    | fault e =>
      unfold awaitEvent
      split
      · exact EnvOnly.refl keyFor _
      · exact ⟨[Tick.fault e], by simp, by simp [actions, replay]⟩

theorem awaitEvent_sorted (keyFor : KeyFormat) (pfx : String) (rev : Int)
    (evs : List EventType) (script : List Tick) (s : Store) (h : s.Sorted) :
    (awaitEvent keyFor pfx rev evs script s).1.store.Sorted := by
  induction script generalizing s with
  | nil =>
    unfold awaitEvent
    split <;> exact h
  | cons t rest ih =>
    cases t with
    | act a =>
      unfold awaitEvent
      split
      · exact h
      · exact ih _ (apply_sorted keyFor h a)
    | turn =>
      unfold awaitEvent
      split
      · exact h
      · exact ih _ h
    | fault e =>
      unfold awaitEvent
      split <;> exact h

/-- The event that ends a wait is the first qualifying event of the history at
that moment. -/
theorem awaitEvent_event (keyFor : KeyFormat) (pfx : String) (rev : Int)
    (evs : List EventType) (script : List Tick) (s : Store) (ev : Event)
    (h : (awaitEvent keyFor pfx rev evs script s).2 = some (Res.ok ev)) :
    firstEvent pfx rev evs (awaitEvent keyFor pfx rev evs script s).1.store.Events = some ev := by
  induction script generalizing s with
  | nil =>
    unfold awaitEvent at h ⊢
    split at h
    · rename_i ev0 h0
      simp at h
      subst h
      simp [h0]
    · simp at h
  | cons t rest ih =>
    cases t with
    | act a =>
      unfold awaitEvent at h ⊢
      split at h
      · rename_i ev0 h0
        simp at h
        subst h
        simp [h0]
      · exact ih _ h
    | turn =>
      unfold awaitEvent at h ⊢
      split at h
      · rename_i ev0 h0
        simp at h
        subst h
        simp [h0]
      · exact ih _ h
    | fault e =>
      unfold awaitEvent at h ⊢
      split at h
      · rename_i ev0 h0
        simp at h
        subst h
        simp [h0]
      · simp at h

theorem firstEvent_spec {pfx : String} {rev : Int} {evs : List EventType}
    {history : List Event} {ev : Event} (h : firstEvent pfx rev evs history = some ev) :
    ev ∈ history ∧ rev ≤ ev.Kv.ModRevision ∧ ev.EvType ∈ evs ∧
      underPrefix pfx ev.Kv.Key = true := by
  unfold firstEvent at h
  have h1 := List.find?_some h
  have h2 := List.mem_of_find?_eq_some h
  simp at h1
  exact ⟨h2, h1.1, h1.2.1, h1.2.2⟩

theorem deleteRev_false {s : Store} {key : String} {rev : Int}
    (h : (s.deleteRev key rev).2 = false) : (s.deleteRev key rev).1 = s := by
  unfold Store.deleteRev at h ⊢
  split
  · split
    · rename_i h1 h2
      simp [h1, h2] at h
    · rfl
  · rfl

/-- What a range read in the modelled world comes to. -/
theorem world_get (keyFor : KeyFormat) (key : String) (opts : OpOptions) (w : World) :
    ∃ w1, EnvOnly keyFor w w1 ∧ (w.store.Sorted → w1.store.Sorted) ∧
      ((∃ e, (worldClient keyFor).Get key opts w = (w1, Res.err e)) ∨
       (worldClient keyFor).Get key opts w = (w1, Res.ok (w1.store.range key opts))) := by
  have h1 := advance_envOnly keyFor w.script w.store
  have h2 := advance_sorted keyFor w.script w.store
  rcases h : advance keyFor w.script w.store with ⟨w1, oe⟩
  rw [h] at h1 h2
  refine ⟨w1, h1, h2, ?_⟩
  cases oe with
  | none => exact Or.inr (by simp [worldClient, h])
  | some e => exact Or.inl ⟨e, by simp [worldClient, h]⟩

/-- What a conditional delete in the modelled world comes to. -/
theorem world_delete (keyFor : KeyFormat) (key : String) (rev : Int) (w : World) :
    ∃ w1, EnvOnly keyFor w w1 ∧ (w.store.Sorted → w1.store.Sorted) ∧
      ((∃ e, (worldClient keyFor).deleteRevKey key rev w = (w1, Res.err e)) ∨
       (worldClient keyFor).deleteRevKey key rev w =
         (⟨(w1.store.deleteRev key rev).1, w1.script⟩,
           Res.ok (w1.store.deleteRev key rev).2)) := by
  have h1 := advance_envOnly keyFor w.script w.store
  have h2 := advance_sorted keyFor w.script w.store
  rcases h : advance keyFor w.script w.store with ⟨w1, oe⟩
  rw [h] at h1 h2
  refine ⟨w1, h1, h2, ?_⟩
  cases oe with
  | none => exact Or.inr (by simp [worldClient, h])
  | some e => exact Or.inl ⟨e, by simp [worldClient, h]⟩

/-- What a wait in the modelled world comes to. -/
theorem world_wait (keyFor : KeyFormat) (pfx : String) (rev : Int) (evs : List EventType)
    (w : World) :
    EnvOnly keyFor w ((worldClient keyFor).WaitPrefixEvents pfx rev evs w).1 ∧
    (w.store.Sorted → ((worldClient keyFor).WaitPrefixEvents pfx rev evs w).1.store.Sorted) ∧
    (∀ ev, ((worldClient keyFor).WaitPrefixEvents pfx rev evs w).2 = some (Res.ok ev) →
      firstEvent pfx rev evs
        ((worldClient keyFor).WaitPrefixEvents pfx rev evs w).1.store.Events = some ev) := by
  have h1 := advance_envOnly keyFor w.script w.store
  have h2 := advance_sorted keyFor w.script w.store
  rcases h : advance keyFor w.script w.store with ⟨w1, oe⟩
  rw [h] at h1 h2
  cases oe with
  | some e => simp [worldClient, h]; exact ⟨h1, h2⟩
  | none =>
    simp only [worldClient, h]
    exact ⟨h1.trans (awaitEvent_envOnly keyFor pfx rev evs w1.script w1.store),
      fun hs => awaitEvent_sorted keyFor pfx rev evs _ _ (h2 hs),
      fun ev hev => awaitEvent_event keyFor pfx rev evs _ _ ev hev⟩

theorem claim_world (keyFor : KeyFormat) (kvs : List KeyValue) :
    ∀ w : World,
      ((∀ k, (claimFirstKey (worldClient keyFor) kvs w).2 ≠ Res.ok (some k)) →
        EnvOnly keyFor w (claimFirstKey (worldClient keyFor) kvs w).1) ∧
      (w.store.Sorted → (claimFirstKey (worldClient keyFor) kvs w).1.store.Sorted) := by
  induction kvs with
  | nil => intro w; simp [claimFirstKey]; exact EnvOnly.refl keyFor w
  | cons k kvs ih =>
    intro w
    obtain ⟨w1, e1, s1, hd⟩ := world_delete keyFor k.Key k.ModRevision w
    rcases hd with ⟨e, hd⟩ | hd
    · simp only [claimFirstKey, hd]
      exact ⟨fun _ => e1, s1⟩
    · rcases hb : (w1.store.deleteRev k.Key k.ModRevision).2 with _ | _
      · rw [hb] at hd
        rw [deleteRev_false hb] at hd
        simp only [claimFirstKey, hd]
        exact ⟨fun h => e1.trans ((ih _).1 h), fun h => (ih _).2 (s1 h)⟩
      · rw [hb] at hd
        simp only [claimFirstKey, hd]
        exact ⟨fun h => absurd rfl (h k), fun h => deleteRev_sorted (s1 h) _ _⟩

/-- A run of `Dequeue` that does not return a value changes the store only
through the actions of the other clients. -/
theorem dequeue_envOnly (keyFor : KeyFormat) (pfx : String) (fuel : Nat) :
    ∀ w : World,
      (∀ v, ((NewQueue (worldClient keyFor) pfx).Dequeue fuel w).2 ≠ Outcome.returned v none) →
      EnvOnly keyFor w ((NewQueue (worldClient keyFor) pfx).Dequeue fuel w).1 := by
  induction fuel with
  | zero => intro w _; simp [Queue.Dequeue]; exact EnvOnly.refl keyFor w
  | succ fuel ih =>
    intro w hne
    obtain ⟨w1, e1, _, hg⟩ := world_get keyFor pfx WithFirstRev w
    rcases hg with ⟨e, hg⟩ | hg
    · simp only [Queue.Dequeue, NewQueue, hg]
      exact e1
    have hc1 := (claim_world keyFor (w1.store.range pfx WithFirstRev).Kvs w1).1
    rcases hc : claimFirstKey (worldClient keyFor) (w1.store.range pfx WithFirstRev).Kvs w1
      with ⟨w2, r2⟩
    rw [hc] at hc1
    simp only at hc1
    rcases r2 with o | e
    swap
    · simp only [Queue.Dequeue, NewQueue, hg, hc]
      exact e1.trans (hc1 (by simp))
    cases o with
    | some k =>
      simp only [Queue.Dequeue, NewQueue, hg, hc] at hne
      exact absurd rfl (hne k.Value)
    | none =>
      have e2 : EnvOnly keyFor w w2 := e1.trans (hc1 (by simp))
      by_cases hm : (w1.store.range pfx WithFirstRev).More = true
      · simp only [Queue.Dequeue, NewQueue, hg, hc, hm, if_true] at hne ⊢
        exact e2.trans (ih w2 hne)
      have hm2 : (w1.store.range pfx WithFirstRev).More = false := by simpa using hm
      have hw1 := (world_wait keyFor pfx (w1.store.range pfx WithFirstRev).Header.Revision
        [EventType.PUT] w2).1
      rcases hw : (worldClient keyFor).WaitPrefixEvents pfx
        (w1.store.range pfx WithFirstRev).Header.Revision [EventType.PUT] w2 with ⟨w3, r3⟩
      rw [hw] at hw1
      have e3 : EnvOnly keyFor w w3 := e2.trans hw1
      rcases r3 with _ | r3
      · simp only [Queue.Dequeue, NewQueue, hg, hc, hm2, hw]
        exact e3
      rcases r3 with ev | e
      swap
      · simp only [Queue.Dequeue, NewQueue, hg, hc, hm2, hw]
        exact e3
      obtain ⟨w4, e4, _, hd⟩ := world_delete keyFor ev.Kv.Key ev.Kv.ModRevision w3
      rcases hd with ⟨e, hd⟩ | hd
      · simp only [Queue.Dequeue, NewQueue, hg, hc, hm2, hw, hd]
        exact e3.trans e4
      rcases hb : (w4.store.deleteRev ev.Kv.Key ev.Kv.ModRevision).2 with _ | _
      · rw [hb, deleteRev_false hb] at hd
        simp only [Queue.Dequeue, NewQueue, hg, hc, hm2, hw, hd] at hne ⊢
        exact (e3.trans e4).trans (ih _ hne)
      · rw [hb] at hd
        simp only [Queue.Dequeue, NewQueue, hg, hc, hm2, hw, hd] at hne
        exact absurd rfl (hne ev.Kv.Value)

theorem deleteRev_absent {s : Store} {key : String} (rev : Int)
    (h : ∀ x ∈ s.Kvs, x.Key ≠ key) : s.deleteRev key rev = (s, false) := by
  unfold Store.deleteRev
  rw [find_none_of_not_mem h]

theorem absent_of_view_nil {s : Store} {pfx key : String} (hv : s.view pfx = [])
    (hk : underPrefix pfx key = true) : ∀ x ∈ s.Kvs, x.Key ≠ key := by
  intro x hx heq
  have : x ∈ s.view pfx := by simp [Store.view, hx, heq, hk]
  rw [hv] at this
  simp at this

/-! ## The claims -/

/-- C10.  A successful `Dequeue` removes exactly one entry: when no other client
acts and `Dequeue` returns `(v, nil)`, the namespace was not empty, `v` is the
value of its entry `e` with the smallest key, and the entries of the store
after the call are those before the call with `e` erased, every other entry
unchanged. -/
theorem dequeue_removes_one (keyFor : KeyFormat) (pfx : String) (fuel : Nat) (w w1 : World)
    (v : String) (hs : w.store.Sorted) (hn : noActs w.script)
    (h : (NewQueue (worldClient keyFor) pfx).Dequeue fuel w = (w1, Outcome.returned v none)) :
    ∃ e rest, w.store.view pfx = e :: rest ∧ e.Value = v ∧ e ∈ w.store.Kvs ∧
      w1.store.Kvs = w.store.Kvs.erase e ∧ (∀ x ∈ rest, keyLt e.Key x.Key = true) := by
  induction fuel generalizing w with
  | zero => simp [Queue.Dequeue] at h
  | succ fuel ih =>
    obtain ⟨u1, e1, _, hg⟩ := world_get keyFor pfx WithFirstRev w
    obtain ⟨hst1, hn1⟩ := e1.of_noActs hn
    rcases hg with ⟨e, hg⟩ | hg
    · simp [Queue.Dequeue, NewQueue, hg] at h
    rcases hv : w.store.view pfx with _ | ⟨e, rest⟩
    · -- the namespace is empty: the call cannot return a value
      exfalso
      have hr : u1.store.range pfx WithFirstRev = ⟨⟨w.store.Revision⟩, [], false⟩ := by
        simp [Store.range, hst1, hv]
      rw [hr] at hg
      have hw1 := world_wait keyFor pfx w.store.Revision [EventType.PUT] u1
      rcases hw : (worldClient keyFor).WaitPrefixEvents pfx w.store.Revision
        [EventType.PUT] u1 with ⟨u3, r3⟩
      rw [hw] at hw1
      obtain ⟨e3, _, hev⟩ := hw1
      obtain ⟨hst3, hn3⟩ := e3.of_noActs hn1
      rcases r3 with _ | r3
      · simp [Queue.Dequeue, NewQueue, hg, claimFirstKey, hw] at h
      rcases r3 with ev | e
      swap
      · simp [Queue.Dequeue, NewQueue, hg, claimFirstKey, hw] at h
      have hunder := (firstEvent_spec (hev ev rfl)).2.2.2
      obtain ⟨u4, e4, _, hd⟩ := world_delete keyFor ev.Kv.Key ev.Kv.ModRevision u3
      obtain ⟨hst4, hn4⟩ := e4.of_noActs hn3
      rcases hd with ⟨e, hd⟩ | hd
      · simp [Queue.Dequeue, NewQueue, hg, claimFirstKey, hw, hd] at h
      have hst : u4.store = w.store := by rw [hst4, hst3, hst1]
      rw [hst, deleteRev_absent _ (absent_of_view_nil hv hunder)] at hd
      simp only [Queue.Dequeue, NewQueue, hg, claimFirstKey, hw, hd] at h
      obtain ⟨e0, rest0, h0, _⟩ := ih ⟨w.store, u4.script⟩ hs hn4 h
      simp [hv] at h0
    · have hr : (u1.store.range pfx WithFirstRev).Kvs = [e] := by
        simp [Store.range, hst1, hv, WithFirstRev]
      have hmem : e ∈ w.store.Kvs := mem_of_mem_view (by rw [hv]; simp)
      have hp := view_sorted hs pfx
      rw [hv, List.pairwise_cons] at hp
      refine ⟨e, rest, rfl, ?_, hmem, ?_, hp.1⟩
      all_goals
        obtain ⟨u2, e2, _, hd⟩ := world_delete keyFor e.Key e.ModRevision u1
        obtain ⟨hst2, _⟩ := e2.of_noActs hn1
        rcases hd with ⟨e0, hd⟩ | hd
        · simp [Queue.Dequeue, NewQueue, hg, hr, claimFirstKey, hd] at h
        have hst : u2.store = w.store := by rw [hst2, hst1]
        rw [hst, (deleteRev_head hs hv).1] at hd
        simp [Queue.Dequeue, NewQueue, hg, hr, claimFirstKey, hd] at h
      · exact h.2
      · rw [← h.1]

/-- A run for C10: one entry in the namespace, no other client. -/
theorem dequeue_removes_one_witness :
    ∃ e rest, (⟨1, [⟨"q/1", "a", 1⟩], [⟨EventType.PUT, ⟨"q/1", "a", 1⟩⟩]⟩ : Store).view "q"
        = e :: rest ∧ e.Value = "a" ∧ e ∈ [(⟨"q/1", "a", 1⟩ : KeyValue)] ∧
      ([] : List KeyValue) = [(⟨"q/1", "a", 1⟩ : KeyValue)].erase e ∧
      (∀ x ∈ rest, keyLt e.Key x.Key = true) :=
  dequeue_removes_one paddedKey "q" 1
    ⟨⟨1, [⟨"q/1", "a", 1⟩], [⟨EventType.PUT, ⟨"q/1", "a", 1⟩⟩]⟩, [Tick.turn, Tick.turn]⟩
    ⟨⟨2, [], [⟨EventType.PUT, ⟨"q/1", "a", 1⟩⟩, ⟨EventType.DELETE, ⟨"q/1", "", 2⟩⟩]⟩, []⟩ "a"
    (by simp [Store.Sorted]) (by simp [noActs]) (by decide)

theorem deleteRev_mem {s : Store} {e : KeyValue} (h : s.Sorted) (he : e ∈ s.Kvs) :
    s.deleteRev e.Key e.ModRevision =
      ({ Revision := s.Revision + 1
         Kvs := s.Kvs.erase e
         Events := s.Events ++ [⟨EventType.DELETE, ⟨e.Key, "", s.Revision + 1⟩⟩] }, true) := by
  unfold Store.deleteRev
  rw [find_of_sorted h he]
  simp [filter_ne_eq_erase h he]

/-- C4.  `Dequeue` on an empty queue returns the next enqueued value: when the
range read finds no entry in the namespace, the watch delivers the insertion
event of an entry with value `c`, and that entry is still in the store when the
conditional delete is served (no other consumer removed it), then `Dequeue`
returns `(c, nil)` and the entry is gone from the store afterwards, all other
entries left as they were. -/
theorem dequeue_wakes_on_enqueue (keyFor : KeyFormat) (pfx : String) (fuel : Nat)
    (w w1 w2 w3 : World) (resp : GetResponse) (ev : Event) (c : String)
    (hs : w.store.Sorted)
    (hget : (worldClient keyFor).Get pfx WithFirstRev w = (w1, Res.ok resp))
    (hnone : resp.Kvs = [])
    (hwait : (worldClient keyFor).WaitPrefixEvents pfx resp.Header.Revision
      [EventType.PUT] w1 = (w2, some (Res.ok ev)))
    (hval : ev.Kv.Value = c)
    (hadv : advance keyFor w2.script w2.store = (w3, none))
    (hkeep : ev.Kv ∈ w3.store.Kvs) :
    (NewQueue (worldClient keyFor) pfx).Dequeue (fuel + 1) w =
      (⟨(w3.store.deleteRev ev.Kv.Key ev.Kv.ModRevision).1, w3.script⟩,
        Outcome.returned c none) ∧
    (w3.store.deleteRev ev.Kv.Key ev.Kv.ModRevision).1.Kvs = w3.store.Kvs.erase ev.Kv ∧
    (∀ x ∈ (w3.store.deleteRev ev.Kv.Key ev.Kv.ModRevision).1.Kvs, x.Key ≠ ev.Kv.Key) := by
  obtain ⟨u1, _, s1, hg⟩ := world_get keyFor pfx WithFirstRev w
  rcases hg with ⟨e, hg⟩ | hg
  · rw [hg] at hget
    simp at hget
  rw [hg] at hget
  simp only [Prod.mk.injEq, Res.ok.injEq] at hget
  obtain ⟨rfl, rfl⟩ := hget
  have hmore : (u1.store.range pfx WithFirstRev).More = false := by
    simp only [Store.range, WithFirstRev] at hnone ⊢
    rcases hv : u1.store.view pfx with _ | ⟨x, xs⟩
    · simp
    · rw [hv] at hnone
      simp at hnone
  have hw := (world_wait keyFor pfx (u1.store.range pfx WithFirstRev).Header.Revision
    [EventType.PUT] u1).2.1
  rw [hwait] at hw
  have hs3 : w3.store.Sorted := by
    have := advance_sorted keyFor w2.script w2.store (hw (s1 hs))
    rwa [hadv] at this
  have hdel := deleteRev_mem hs3 hkeep
  have hd : (worldClient keyFor).deleteRevKey ev.Kv.Key ev.Kv.ModRevision w2 =
      (⟨(w3.store.deleteRev ev.Kv.Key ev.Kv.ModRevision).1, w3.script⟩, Res.ok true) := by
    simp [worldClient, hadv, hdel]
  refine ⟨?_, by rw [hdel], ?_⟩
  · simp only [Queue.Dequeue, NewQueue, hg, hnone, claimFirstKey, hmore, hwait, hd, hval]
    simp
  · rw [hdel]
    simp only
    rw [← filter_ne_eq_erase hs3 hkeep]
    intro x hx
    simp at hx
    exact hx.2

/-- A run for C4: `Dequeue` waits on the empty store, another client enqueues
`"c"`, and `Dequeue` returns it. -/
theorem dequeue_wakes_on_enqueue_witness :
    (NewQueue (worldClient paddedKey) "q").Dequeue 1
        ⟨⟨0, [], []⟩, [Tick.turn, Tick.turn, Tick.act (Action.enqueue "q" "c"), Tick.turn]⟩ =
      (⟨((⟨1, [⟨"q/00000000000000000001", "c", 1⟩],
            [⟨EventType.PUT, ⟨"q/00000000000000000001", "c", 1⟩⟩]⟩ : Store).deleteRev
          "q/00000000000000000001" 1).1, []⟩, Outcome.returned "c" none) ∧
    ((⟨1, [⟨"q/00000000000000000001", "c", 1⟩],
          [⟨EventType.PUT, ⟨"q/00000000000000000001", "c", 1⟩⟩]⟩ : Store).deleteRev
        "q/00000000000000000001" 1).1.Kvs
      = [(⟨"q/00000000000000000001", "c", 1⟩ : KeyValue)].erase
          ⟨"q/00000000000000000001", "c", 1⟩ ∧
    (∀ x ∈ ((⟨1, [⟨"q/00000000000000000001", "c", 1⟩],
          [⟨EventType.PUT, ⟨"q/00000000000000000001", "c", 1⟩⟩]⟩ : Store).deleteRev
        "q/00000000000000000001" 1).1.Kvs, x.Key ≠ "q/00000000000000000001") :=
  dequeue_wakes_on_enqueue paddedKey "q" 0
    ⟨⟨0, [], []⟩, [Tick.turn, Tick.turn, Tick.act (Action.enqueue "q" "c"), Tick.turn]⟩
    ⟨⟨0, [], []⟩, [Tick.turn, Tick.act (Action.enqueue "q" "c"), Tick.turn]⟩
    ⟨⟨1, [⟨"q/00000000000000000001", "c", 1⟩],
      [⟨EventType.PUT, ⟨"q/00000000000000000001", "c", 1⟩⟩]⟩, [Tick.turn]⟩
    ⟨⟨1, [⟨"q/00000000000000000001", "c", 1⟩],
      [⟨EventType.PUT, ⟨"q/00000000000000000001", "c", 1⟩⟩]⟩, []⟩
    ⟨⟨0⟩, [], false⟩ ⟨EventType.PUT, ⟨"q/00000000000000000001", "c", 1⟩⟩ "c"
    (by simp [Store.Sorted]) (by decide) rfl (by decide) rfl (by decide) (by decide)

/-- C2.  `Dequeue` never returns a value it did not itself claim: when `Dequeue`
returns `(v, nil)`, the last call of the run is a conditional delete that
succeeded on an entry `(Key, ModRevision)` whose value is `v`, and that entry
was returned by a range read of the run or delivered by a watch event of the
run. -/
theorem dequeue_returns_claimed {σ : Type} (q : Queue σ) (fuel : Nat) (s : σ) (v : String)
    (h : (q.Dequeue fuel s).2 = Outcome.returned v none) :
    ∃ pre kv, q.trace fuel s = pre ++ [Call.del kv.Key kv.ModRevision (Res.ok true)] ∧
      kv.Value = v ∧
      ((∃ key opts resp, Call.get key opts (Res.ok resp) ∈ pre ∧ kv ∈ resp.Kvs) ∨
       (∃ p rev evs ev, Call.wait p rev evs (some (Res.ok ev)) ∈ pre ∧ ev.Kv = kv)) :=
  (dequeue_run q fuel s).returns_claimed h

/-- A run for C2: the entry of the namespace is claimed and returned. -/
theorem dequeue_returns_claimed_witness :
    ∃ pre kv, (NewQueue (worldClient paddedKey) "q").trace 1
        ⟨⟨1, [⟨"q/1", "a", 1⟩], [⟨EventType.PUT, ⟨"q/1", "a", 1⟩⟩]⟩, []⟩
          = pre ++ [Call.del kv.Key kv.ModRevision (Res.ok true)] ∧
      kv.Value = "a" ∧
      ((∃ key opts resp, Call.get key opts (Res.ok resp) ∈ pre ∧ kv ∈ resp.Kvs) ∨
       (∃ p rev evs ev, Call.wait p rev evs (some (Res.ok ev)) ∈ pre ∧ ev.Kv = kv)) :=
  dequeue_returns_claimed (NewQueue (worldClient paddedKey) "q") 1
    ⟨⟨1, [⟨"q/1", "a", 1⟩], [⟨EventType.PUT, ⟨"q/1", "a", 1⟩⟩]⟩, []⟩ "a" (by decide)

/-- C5.  Store errors propagate immediately: when a store call of a run of
`Dequeue` (the range read, a claim attempt, the wait, or the conditional delete
after a wake) is answered with an error `e`, `Dequeue` returns `("", e)` and no
call follows the failing one. -/
theorem dequeue_error_propagates {σ : Type} (q : Queue σ) (fuel : Nat) (s : σ)
    (pre post : List Call) (call : Call) (e : Error)
    (h : q.trace fuel s = pre ++ call :: post) (he : call.error? = some e) :
    (q.Dequeue fuel s).2 = Outcome.returned "" (some e) ∧ post = [] :=
  (dequeue_run q fuel s).error_last h he

/-- A run for C5: the conditional delete after the wake fails. -/
theorem dequeue_error_propagates_witness :
    ((NewQueue (worldClient paddedKey) "q").Dequeue 1
        ⟨⟨0, [], []⟩, [Tick.turn, Tick.turn, Tick.act (Action.enqueue "q" "c"),
          Tick.fault ⟨"store unavailable"⟩]⟩).2
      = Outcome.returned "" (some ⟨"store unavailable"⟩) ∧ ([] : List Call) = [] :=
  dequeue_error_propagates (NewQueue (worldClient paddedKey) "q") 1
    ⟨⟨0, [], []⟩, [Tick.turn, Tick.turn, Tick.act (Action.enqueue "q" "c"),
      Tick.fault ⟨"store unavailable"⟩]⟩
    [Call.get "q" WithFirstRev (Res.ok ⟨⟨0⟩, [], false⟩),
      Call.wait "q" 0 [EventType.PUT]
        (some (Res.ok ⟨EventType.PUT, ⟨"q/00000000000000000001", "c", 1⟩⟩))]
    [] (Call.del "q/00000000000000000001" 1 (Res.err ⟨"store unavailable"⟩))
    ⟨"store unavailable"⟩ (by decide) rfl

/-- C6.  A `Dequeue` that ends with an error leaves no claimed-but-lost entry.
For every client: when `Dequeue` returns a non-nil error, no conditional delete
of the run succeeded.  In the modelled world: the store after such a run is
the store before it changed by the actions of the other clients alone, so an
entry that no other client removed is still there. -/
theorem dequeue_error_claims_nothing :
    (∀ {σ : Type} (q : Queue σ) (fuel : Nat) (s : σ) (v : String) (e : Error),
      (q.Dequeue fuel s).2 = Outcome.returned v (some e) →
      ∀ key rev, Call.del key rev (Res.ok true) ∉ q.trace fuel s) ∧
    (∀ (keyFor : KeyFormat) (pfx : String) (fuel : Nat) (w : World) (v : String) (e : Error),
      ((NewQueue (worldClient keyFor) pfx).Dequeue fuel w).2 = Outcome.returned v (some e) →
      EnvOnly keyFor w ((NewQueue (worldClient keyFor) pfx).Dequeue fuel w).1) := by
  constructor
  · intro σ q fuel s v e h key rev hmem
    exact (dequeue_run q fuel s).error_not_won h _ hmem (by simp [Call.won])
  · intro keyFor pfx fuel w v e h
    exact dequeue_envOnly keyFor pfx fuel w (by simp [h])

/-- A run for C6: the claim attempt is answered with a cancellation; the entry
stays in the store. -/
theorem dequeue_error_claims_nothing_witness :
    (∀ key rev, Call.del key rev (Res.ok true) ∉
      (NewQueue (worldClient paddedKey) "q").trace 1
        ⟨⟨1, [⟨"q/1", "a", 1⟩], [⟨EventType.PUT, ⟨"q/1", "a", 1⟩⟩]⟩,
          [Tick.turn, Tick.fault ⟨"context canceled"⟩]⟩) ∧
    EnvOnly paddedKey
      ⟨⟨1, [⟨"q/1", "a", 1⟩], [⟨EventType.PUT, ⟨"q/1", "a", 1⟩⟩]⟩,
        [Tick.turn, Tick.fault ⟨"context canceled"⟩]⟩
      ((NewQueue (worldClient paddedKey) "q").Dequeue 1
        ⟨⟨1, [⟨"q/1", "a", 1⟩], [⟨EventType.PUT, ⟨"q/1", "a", 1⟩⟩]⟩,
          [Tick.turn, Tick.fault ⟨"context canceled"⟩]⟩).1 :=
  ⟨dequeue_error_claims_nothing.1 (NewQueue (worldClient paddedKey) "q") 1
      ⟨⟨1, [⟨"q/1", "a", 1⟩], [⟨EventType.PUT, ⟨"q/1", "a", 1⟩⟩]⟩,
        [Tick.turn, Tick.fault ⟨"context canceled"⟩]⟩ "" ⟨"context canceled"⟩ (by decide),
    dequeue_error_claims_nothing.2 paddedKey "q" 1
      ⟨⟨1, [⟨"q/1", "a", 1⟩], [⟨EventType.PUT, ⟨"q/1", "a", 1⟩⟩]⟩,
        [Tick.turn, Tick.fault ⟨"context canceled"⟩]⟩ "" ⟨"context canceled"⟩ (by decide)⟩

/-- C7, as the claim states it, fails: after a range read with no entries at
header revision 5 the watch is opened from revision 5, not from 6. -/
theorem wait_from_next_revision_counterexample :
    (NewQueue (worldClient paddedKey) "q").trace 1 ⟨⟨5, [], []⟩, []⟩ =
      [Call.get "q" WithFirstRev (Res.ok ⟨⟨5⟩, [], false⟩),
       Call.wait "q" 5 [EventType.PUT] none] ∧
    (5 : Int) ≠ 5 + 1 := by
  decide

/-- C7, amended.  Whenever a range read of `Dequeue` returns no entries (and
reports no more) with header revision `R`, the next call is the watch on the
queue namespace, started with fromRevision `R` and filtering for PUT events
only. -/
theorem wait_from_header_revision {σ : Type} (q : Queue σ) (fuel : Nat) (s : σ)
    (pre post : List Call) (key : String) (opts : OpOptions) (resp : GetResponse)
    (h : q.trace fuel s = pre ++ Call.get key opts (Res.ok resp) :: post)
    (hk : resp.Kvs = []) (hm : resp.More = false) :
    ∃ r tl, post = Call.wait q.keyPrefix resp.Header.Revision [EventType.PUT] r :: tl := by
  have h1 : q.trace fuel s = pre ++ Call.get key opts (Res.ok resp) :: (lost resp.Kvs ++ post) := by
    rw [h, hk]
    simp [lost]
  exact ((dequeue_run q fuel s).after_lost h1).2 hm

/-- A run for the amended C7: an empty read at revision 5, then the wait from
revision 5. -/
theorem wait_from_header_revision_witness :
    ∃ r tl, [Call.wait "q" 5 [EventType.PUT] none] =
      Call.wait (NewQueue (worldClient paddedKey) "q").keyPrefix
        (⟨⟨5⟩, [], false⟩ : GetResponse).Header.Revision [EventType.PUT] r :: tl :=
  wait_from_header_revision (NewQueue (worldClient paddedKey) "q") 1 ⟨⟨5, [], []⟩, []⟩
    [] [Call.wait "q" 5 [EventType.PUT] none] "q" WithFirstRev ⟨⟨5⟩, [], false⟩
    (by decide) rfl rfl

/-- C8, as the claim states it, fails: woken by the insertion of
`q/00000000000000000001` at revision 1, `Dequeue` loses the conditional delete
to another consumer; its next call is a new range read, and the wait that
follows starts from the re-scanned revision 2, not from the event's
revision 1. -/
theorem lost_wake_keeps_waiting_counterexample :
    (NewQueue (worldClient paddedKey) "q").trace 2
        ⟨⟨0, [], []⟩, [Tick.turn, Tick.act (Action.enqueue "q" "c"),
          Tick.act (Action.delete "q/00000000000000000001" 1)]⟩ =
      [Call.get "q" WithFirstRev (Res.ok ⟨⟨0⟩, [], false⟩),
       Call.wait "q" 0 [EventType.PUT]
         (some (Res.ok ⟨EventType.PUT, ⟨"q/00000000000000000001", "c", 1⟩⟩)),
       Call.del "q/00000000000000000001" 1 (Res.ok false),
       Call.get "q" WithFirstRev (Res.ok ⟨⟨2⟩, [], false⟩),
       Call.wait "q" 2 [EventType.PUT] none] := by
  decide

/-- C8, amended.  Whenever `Dequeue` is woken by an insertion event for key `k`
at revision `v` and the conditional delete of `(k, v)` returns false, `Dequeue`
starts over: its next call is a new range read on the queue namespace (the run
ends there only when the recursion budget of the embedding is used up), and
every wait it opens afterwards comes right after a range read and the lost
claim attempts on that read's entries, and is started on the queue namespace
from the header revision of that read, for PUT events only. -/
theorem lost_wake_rescans {σ : Type} (q : Queue σ) (fuel : Nat) (s : σ)
    (pre post : List Call) (p : String) (r : Int) (evs : List EventType) (ev : Event)
    (key : String) (rev : Int)
    (h : q.trace fuel s = pre ++ Call.wait p r evs (some (Res.ok ev)) ::
      Call.del key rev (Res.ok false) :: post) :
    (key = ev.Kv.Key ∧ rev = ev.Kv.ModRevision) ∧
    ((post = [] ∧ (q.Dequeue fuel s).2 = Outcome.outOfFuel) ∨
      ∃ r2 tl, post = Call.get q.keyPrefix WithFirstRev r2 :: tl) ∧
    (∀ (mid tl : List Call) (p2 : String) (r3 : Int) (evs2 : List EventType)
        (x : Option (Res Event)),
      post = mid ++ Call.wait p2 r3 evs2 x :: tl →
      ∃ mid0 resp, mid = mid0 ++ Call.get q.keyPrefix WithFirstRev (Res.ok resp) ::
          lost resp.Kvs ∧
        p2 = q.keyPrefix ∧ r3 = resp.Header.Revision ∧ evs2 = [EventType.PUT]) := by
  obtain ⟨h1, h2⟩ := (dequeue_run q fuel s).after_wake_lost h
  refine ⟨h1, ?_, ?_⟩
  · rcases h2.head with ⟨h3, h4⟩ | ⟨r2, tl, h3⟩
    · exact Or.inl ⟨h3, h4⟩
    · exact Or.inr ⟨r2, tl, h3⟩
  · intro mid tl p2 r3 evs2 x hpost
    exact h2.wait_after_read hpost

/-- A run for the amended C8: the claim after the wake on revision 1 is lost, a
new range read at header revision 2 follows, and the wait after it starts from
revision 2. -/
theorem lost_wake_rescans_witness :
    (∃ r2 tl, [Call.get "q" WithFirstRev (Res.ok ⟨⟨2⟩, [], false⟩),
        Call.wait "q" 2 [EventType.PUT] none] =
          Call.get (NewQueue (worldClient paddedKey) "q").keyPrefix WithFirstRev r2 :: tl) ∧
    (∃ mid0 resp, [Call.get "q" WithFirstRev (Res.ok ⟨⟨2⟩, [], false⟩)] =
        mid0 ++ Call.get (NewQueue (worldClient paddedKey) "q").keyPrefix WithFirstRev
          (Res.ok resp) :: lost resp.Kvs ∧
      "q" = (NewQueue (worldClient paddedKey) "q").keyPrefix ∧
      (2 : Int) = resp.Header.Revision ∧ [EventType.PUT] = [EventType.PUT]) :=
  have hrun := lost_wake_rescans (NewQueue (worldClient paddedKey) "q") 2
    ⟨⟨0, [], []⟩, [Tick.turn, Tick.act (Action.enqueue "q" "c"),
      Tick.act (Action.delete "q/00000000000000000001" 1)]⟩
    [Call.get "q" WithFirstRev (Res.ok ⟨⟨0⟩, [], false⟩)]
    [Call.get "q" WithFirstRev (Res.ok ⟨⟨2⟩, [], false⟩), Call.wait "q" 2 [EventType.PUT] none]
    "q" 0 [EventType.PUT] ⟨EventType.PUT, ⟨"q/00000000000000000001", "c", 1⟩⟩
    "q/00000000000000000001" 1 (by decide)
  ⟨hrun.2.1.resolve_left (by simp),
    hrun.2.2 [Call.get "q" WithFirstRev (Res.ok ⟨⟨2⟩, [], false⟩)] [] "q" 2
      [EventType.PUT] none rfl⟩

/-- C9, as the claim states it, fails: the range read returns the one entry
`q/1` and reports no more, the claim attempt loses the race to another
consumer, and the next call of `Dequeue` is the wait on the event stream, not a
new range read. -/
theorem contended_rescans_counterexample :
    (NewQueue (worldClient paddedKey) "q").trace 2
        ⟨⟨1, [⟨"q/1", "a", 1⟩], [⟨EventType.PUT, ⟨"q/1", "a", 1⟩⟩]⟩,
          [Tick.turn, Tick.act (Action.delete "q/1" 1)]⟩ =
      [Call.get "q" WithFirstRev (Res.ok ⟨⟨1⟩, [⟨"q/1", "a", 1⟩], false⟩),
       Call.del "q/1" 1 (Res.ok false),
       Call.wait "q" 1 [EventType.PUT] (some (Res.ok ⟨EventType.PUT, ⟨"q/1", "a", 1⟩⟩)),
       Call.del "q/1" 1 (Res.ok false),
       Call.get "q" WithFirstRev (Res.ok ⟨⟨2⟩, [], false⟩),
       Call.wait "q" 2 [EventType.PUT] none] := by
  decide

/-- C9, amended.  Whenever a range read of `Dequeue` returns at least one entry
and every claim attempt on the returned entries loses the race, `Dequeue`
performs a new range read when the read reported that more entries exist (the
run ends there only when the recursion budget of the embedding is used up),
and starts the wait on the queue namespace from the read's header revision
when it reported no more. -/
theorem contended_rescans_when_more {σ : Type} (q : Queue σ) (fuel : Nat) (s : σ)
    (pre post : List Call) (key : String) (opts : OpOptions) (resp : GetResponse)
    (h : q.trace fuel s = pre ++ Call.get key opts (Res.ok resp) :: (lost resp.Kvs ++ post))
    (_hne : resp.Kvs ≠ []) :
    (resp.More = true → (post = [] ∧ (q.Dequeue fuel s).2 = Outcome.outOfFuel) ∨
      ∃ r tl, post = Call.get q.keyPrefix WithFirstRev r :: tl) ∧
    (resp.More = false → ∃ r tl,
      post = Call.wait q.keyPrefix resp.Header.Revision [EventType.PUT] r :: tl) :=
  (dequeue_run q fuel s).after_lost h

/-- A run for the amended C9: two entries, the claim on the first is lost, the
read reported more, and a new range read follows. -/
theorem contended_rescans_when_more_witness :
    ((⟨⟨2⟩, [⟨"q/1", "a", 1⟩], true⟩ : GetResponse).More = true →
      ([Call.get "q" WithFirstRev (Res.ok ⟨⟨3⟩, [⟨"q/2", "b", 2⟩], false⟩),
          Call.del "q/2" 2 (Res.ok true)] = [] ∧
        ((NewQueue (worldClient paddedKey) "q").Dequeue 2
          ⟨⟨2, [⟨"q/1", "a", 1⟩, ⟨"q/2", "b", 2⟩], []⟩,
            [Tick.turn, Tick.act (Action.delete "q/1" 1)]⟩).2 = Outcome.outOfFuel) ∨
      ∃ r tl, [Call.get "q" WithFirstRev (Res.ok ⟨⟨3⟩, [⟨"q/2", "b", 2⟩], false⟩),
          Call.del "q/2" 2 (Res.ok true)] =
        Call.get (NewQueue (worldClient paddedKey) "q").keyPrefix WithFirstRev r :: tl) ∧
    ((⟨⟨2⟩, [⟨"q/1", "a", 1⟩], true⟩ : GetResponse).More = false →
      ∃ r tl, [Call.get "q" WithFirstRev (Res.ok ⟨⟨3⟩, [⟨"q/2", "b", 2⟩], false⟩),
          Call.del "q/2" 2 (Res.ok true)] =
        Call.wait (NewQueue (worldClient paddedKey) "q").keyPrefix
          (⟨⟨2⟩, [⟨"q/1", "a", 1⟩], true⟩ : GetResponse).Header.Revision
          [EventType.PUT] r :: tl) :=
  contended_rescans_when_more (NewQueue (worldClient paddedKey) "q") 2
    ⟨⟨2, [⟨"q/1", "a", 1⟩, ⟨"q/2", "b", 2⟩], []⟩, [Tick.turn, Tick.act (Action.delete "q/1" 1)]⟩
    [] [Call.get "q" WithFirstRev (Res.ok ⟨⟨3⟩, [⟨"q/2", "b", 2⟩], false⟩),
      Call.del "q/2" 2 (Res.ok true)]
    "q" WithFirstRev ⟨⟨2⟩, [⟨"q/1", "a", 1⟩], true⟩ (by decide) (by simp)

/-! ## Concurrent calls: exactly one claims -/

theorem countP_set_same {α : Type} (f : α → Bool) :
    ∀ (l : List α) (i : Nat) (p x : α), l[i]? = some p → f p = f x →
      (l.set i x).countP f = l.countP f := by
  intro l
  induction l with
  | nil => intro i p x h; simp at h
  | cons a l ih =>
    intro i p x h hf
    cases i with
    | zero =>
      simp at h
      subst h
      simp [List.countP_cons, hf]
    | succ i =>
      simp at h
      simp [List.countP_cons, ih i p x h hf]

theorem countP_set_gain {α : Type} (f : α → Bool) :
    ∀ (l : List α) (i : Nat) (p x : α), l[i]? = some p → f p = false → f x = true →
      (l.set i x).countP f = l.countP f + 1 := by
  intro l
  induction l with
  | nil => intro i p x h; simp at h
  | cons a l ih =>
    intro i p x h hp hx
    cases i with
    | zero =>
      simp at h
      subst h
      simp [List.countP_cons, hp, hx]
    | succ i =>
      simp at h
      simp [List.countP_cons, ih i p x h hp hx]
      omega

theorem range_single {s : Store} {pfx : String} {e : KeyValue} (hv : s.view pfx = [e]) :
    s.range pfx WithFirstRev = ⟨⟨s.Revision⟩, [e], false⟩ := by
  simp [Store.range, hv, WithFirstRev]

theorem range_none {s : Store} {pfx : String} (hv : s.view pfx = []) :
    s.range pfx WithFirstRev = ⟨⟨s.Revision⟩, [], false⟩ := by
  simp [Store.range, hv]

theorem under_of_mem_view {s : Store} {pfx : String} {e : KeyValue} (h : e ∈ s.view pfx) :
    underPrefix pfx e.Key = true := by
  simp [Store.view] at h
  exact h.2

theorem Pc.late_of_early {pfx : String} {s : Store} {e : KeyValue} (hv : s.view pfx = [e])
    {p : Pc} (h : p.early (s.range pfx WithFirstRev) e) : p.late pfx e := by
  cases p with
  | start => trivial
  | claiming r todo =>
    obtain ⟨h1, h2⟩ := h
    subst h1
    exact ⟨by rw [range_single hv], Or.inl h2⟩
  | waiting rev => exact absurd h (by simp [Pc.early])
  | woken ev => exact absurd h (by simp [Pc.early])
  | done val err => exact absurd h (by simp [Pc.early])

theorem Pc.early_not_done {resp : GetResponse} {e : KeyValue} {p : Pc}
    (h : p.early resp e) : p.isDone = false := by
  cases p <;> simp [Pc.early, Pc.isDone] at h ⊢

/-- Every step of every call keeps the invariant. -/
theorem Conf.inv_step {pfx : String} {s : Store} {e : KeyValue} (hs : s.Sorted)
    (hv : s.view pfx = [e]) (i : Nat) {c : Conf} (h : c.Inv pfx s e) :
    (c.step pfx i).Inv pfx s e := by
  unfold Conf.step
  rcases hi : c.procs[i]? with _ | p
  · exact h
  have hp : p ∈ c.procs := List.getElem?_mem hi
  have hdel := deleteRev_head hs hv
  have hunder : underPrefix pfx e.Key = true := under_of_mem_view (by rw [hv]; simp)
  have habs : ∀ key, underPrefix pfx key = true → ∀ rev,
      (s.deleteRev e.Key e.ModRevision).1.deleteRev key rev
        = ((s.deleteRev e.Key e.ModRevision).1, false) :=
    fun key hk rev => deleteRev_absent rev (absent_of_view_nil hdel.2 hk)
  rcases h with ⟨hst, hcnt, hall⟩ | ⟨hst, hcnt, hall⟩
  · have hearly := hall p hp
    cases p with
    | start =>
      left
      simp only [Pc.step, hst]
      refine ⟨by simp, ?_, ?_⟩
      · rw [countP_set_same Pc.isDone _ i _ _ hi (by simp [Pc.isDone])]
        exact hcnt
      · intro x hx
        rcases List.mem_or_eq_of_mem_set hx with hx | rfl
        · exact hall x hx
        · exact ⟨rfl, by rw [range_single hv]⟩
    | claiming r todo =>
      obtain ⟨h1, h2⟩ := hearly
      subst h1 h2
      right
      simp only [Pc.step, hst, hdel.1]
      refine ⟨by simp [hdel.1], ?_, ?_⟩
      · rw [countP_set_gain Pc.isDone _ i _ _ hi (by simp [Pc.isDone]) (by simp [Pc.isDone])]
        omega
      · intro x hx
        rcases List.mem_or_eq_of_mem_set hx with hx | rfl
        · exact Pc.late_of_early hv (hall x hx)
        · exact ⟨rfl, rfl⟩
    | waiting rev => exact absurd hearly (by simp [Pc.early])
    | woken ev => exact absurd hearly (by simp [Pc.early])
    | done val err => exact absurd hearly (by simp [Pc.early])
  · have hlate := hall p hp
    right
    cases p with
    | start =>
      simp only [Pc.step, hst]
      refine ⟨by simp, ?_, ?_⟩
      · rw [countP_set_same Pc.isDone _ i _ _ hi (by simp [Pc.isDone])]
        exact hcnt
      · intro x hx
        rcases List.mem_or_eq_of_mem_set hx with hx | rfl
        · exact hall x hx
        · rw [range_none hdel.2]
          exact ⟨rfl, Or.inr rfl⟩
    | claiming r todo =>
      obtain ⟨h1, h2⟩ := hlate
      rcases h2 with rfl | rfl
      · simp only [Pc.step, hst, habs e.Key hunder]
        refine ⟨by simp, ?_, ?_⟩
        · rw [countP_set_same Pc.isDone _ i _ _ hi (by simp [Pc.isDone])]
          exact hcnt
        · intro x hx
          rcases List.mem_or_eq_of_mem_set hx with hx | rfl
          · exact hall x hx
          · exact ⟨h1, Or.inr rfl⟩
      · simp only [Pc.step, hst, h1, Bool.false_eq_true, if_false]
        refine ⟨by simp, ?_, ?_⟩
        · rw [countP_set_same Pc.isDone _ i _ _ hi (by simp [Pc.isDone])]
          exact hcnt
        · intro x hx
          rcases List.mem_or_eq_of_mem_set hx with hx | rfl
          · exact hall x hx
          · simp [Pc.late]
    | waiting rev =>
      simp only [Pc.step, hst]
      rcases hf : firstEvent pfx rev [EventType.PUT]
        (s.deleteRev e.Key e.ModRevision).1.Events with _ | ev
      all_goals dsimp only
      · refine ⟨by simp, ?_, ?_⟩
        · rw [countP_set_same Pc.isDone _ i _ _ hi (by simp [Pc.isDone])]
          exact hcnt
        · intro x hx
          rcases List.mem_or_eq_of_mem_set hx with hx | rfl
          · exact hall x hx
          · trivial
      · refine ⟨by simp, ?_, ?_⟩
        · rw [countP_set_same Pc.isDone _ i _ _ hi (by simp [Pc.isDone])]
          exact hcnt
        · intro x hx
          rcases List.mem_or_eq_of_mem_set hx with hx | rfl
          · exact hall x hx
          · exact (firstEvent_spec hf).2.2.2
    | woken ev =>
      simp only [Pc.step, hst, habs ev.Kv.Key hlate]
      refine ⟨by simp, ?_, ?_⟩
      · rw [countP_set_same Pc.isDone _ i _ _ hi (by simp [Pc.isDone])]
        exact hcnt
      · intro x hx
        rcases List.mem_or_eq_of_mem_set hx with hx | rfl
        · exact hall x hx
        · trivial
    | done val err =>
      simp only [Pc.step, hst]
      refine ⟨by simp, ?_, ?_⟩
      · rw [countP_set_same Pc.isDone _ i _ _ hi rfl]
        exact hcnt
      · intro x hx
        rcases List.mem_or_eq_of_mem_set hx with hx | rfl
        · exact hall x hx
        · exact hlate

theorem Conf.inv_run {pfx : String} {s : Store} {e : KeyValue} (hs : s.Sorted)
    (hv : s.view pfx = [e]) (sched : List Nat) :
    ∀ c : Conf, c.Inv pfx s e → (Conf.run pfx sched c).Inv pfx s e := by
  induction sched with
  | nil => intro c h; exact h
  | cons i sched ih => intro c h; exact ih _ (Conf.inv_step hs hv i h)

theorem Conf.step_length (pfx : String) (i : Nat) (c : Conf) :
    (c.step pfx i).procs.length = c.procs.length := by
  unfold Conf.step
  split <;> simp

theorem Conf.run_length (pfx : String) (sched : List Nat) :
    ∀ c : Conf, (Conf.run pfx sched c).procs.length = c.procs.length := by
  induction sched with
  | nil => intro c; rfl
  | cons i sched ih => intro c; simp [Conf.run, ih, Conf.step_length]

theorem Conf.fresh_step {pfx : String} {s : Store} {e : KeyValue} (hs : s.Sorted)
    (hv : s.view pfx = [e]) (j : Nat) {hist : List Nat} {c : Conf} (h : c.Inv pfx s e)
    (hf : c.Fresh hist) : (c.step pfx j).Fresh (hist ++ [j]) := by
  intro hcnt i p hi
  unfold Conf.step at hcnt hi
  rcases hj : c.procs[j]? with _ | pj
  · rw [hj] at hcnt hi
    simp only at hcnt hi
    have hne : j ≠ i := by
      intro heq
      rw [heq, hi] at hj
      simp at hj
    have := hf hcnt i p hi
    simpa [List.count_singleton, hne] using this
  rw [hj] at hcnt hi
  simp only at hcnt hi
  rcases h with ⟨hst, hc0, hall⟩ | ⟨hst, hc1, hall⟩
  · have hearly := hall pj (List.getElem?_mem hj)
    cases pj with
    | start =>
      by_cases hji : j = i
      · subst hji
        have hlt : j < c.procs.length := by
          by_contra hge
          rw [List.getElem?_eq_none (by omega)] at hj
          simp at hj
        rw [List.getElem?_set_self hlt] at hi
        simp only [Option.some.injEq] at hi
        subst hi
        right
        refine ⟨⟨_, _, rfl⟩, ?_⟩
        rcases hf hc0 j Pc.start hj with ⟨_, h0⟩ | ⟨⟨r, todo, h1⟩, _⟩
        · simp [h0]
        · simp at h1
      · rw [List.getElem?_set_ne hji] at hi
        have := hf hc0 i p hi
        simpa [List.count_singleton, hji] using this
    | claiming r todo =>
      exfalso
      obtain ⟨h1, h2⟩ := hearly
      subst h1 h2
      simp only [Pc.step, hst, (deleteRev_head hs hv).1] at hcnt
      rw [countP_set_gain Pc.isDone _ j _ _ hj (by simp [Pc.isDone]) (by simp [Pc.isDone])]
        at hcnt
      omega
    | waiting rev => exact absurd hearly (by simp [Pc.early])
    | woken ev => exact absurd hearly (by simp [Pc.early])
    | done val err => exact absurd hearly (by simp [Pc.early])
  · exfalso
    have hmono : c.procs.countP Pc.isDone ≤
        (c.procs.set j (pj.step pfx c.store).1).countP Pc.isDone := by
      by_cases hd : pj.isDone = true
      · have hstep : (pj.step pfx c.store).1 = pj := by
          cases pj <;> simp [Pc.isDone] at hd
          rfl
        rw [hstep, countP_set_same Pc.isDone _ j pj pj hj rfl]
      · have hd2 : pj.isDone = false := by simpa using hd
        by_cases hd3 : (pj.step pfx c.store).1.isDone = true
        · rw [countP_set_gain Pc.isDone _ j pj _ hj hd2 hd3]
          omega
        · have hd4 : (pj.step pfx c.store).1.isDone = false := by simpa using hd3
          rw [countP_set_same Pc.isDone _ j pj _ hj (by rw [hd2, hd4])]
    omega

theorem Conf.fresh_run {pfx : String} {s : Store} {e : KeyValue} (hs : s.Sorted)
    (hv : s.view pfx = [e]) (sched : List Nat) :
    ∀ (hist : List Nat) (c : Conf), c.Inv pfx s e → c.Fresh hist →
      (Conf.run pfx sched c).Fresh (hist ++ sched) := by
  induction sched with
  | nil => intro hist c _ hf; simpa using hf
  | cons j sched ih =>
    intro hist c h hf
    have := ih (hist ++ [j]) _ (Conf.inv_step hs hv j h) (Conf.fresh_step hs hv j h hf)
    simpa [Conf.run] using this

/-- C3.  Exactly-once claim under contention: over a store whose namespace
holds exactly the entry `e`, for every number `M ≥ 1` of concurrent calls of
`Dequeue` and every interleaving of their store calls, every call that has
returned has returned `(e.Value, nil)` and at most one call has returned;
exactly one call has returned as soon as some call has been scheduled twice,
and also whenever no call can move any more. -/
theorem exactly_one_claims (pfx : String) (s : Store) (e : KeyValue) (M : Nat)
    (sched : List Nat) (hs : s.Sorted) (hv : s.view pfx = [e]) (hM : 1 ≤ M) :
    (∀ p ∈ (Conf.run pfx sched ⟨s, List.replicate M Pc.start⟩).procs,
      p.isDone = true → p = Pc.done e.Value none) ∧
    (Conf.run pfx sched ⟨s, List.replicate M Pc.start⟩).procs.countP Pc.isDone ≤ 1 ∧
    ((∃ i, i < M ∧ 2 ≤ sched.count i) →
      (Conf.run pfx sched ⟨s, List.replicate M Pc.start⟩).procs.countP Pc.isDone = 1) ∧
    ((Conf.run pfx sched ⟨s, List.replicate M Pc.start⟩).quiescent pfx →
      (Conf.run pfx sched ⟨s, List.replicate M Pc.start⟩).procs.countP Pc.isDone = 1) := by
  have h0 : (⟨s, List.replicate M Pc.start⟩ : Conf).Inv pfx s e := by
    left
    refine ⟨rfl, ?_, ?_⟩
    · rw [List.countP_eq_zero]
      intro p hp
      rw [List.eq_of_mem_replicate hp]
      simp [Pc.isDone]
    · intro p hp
      rw [List.eq_of_mem_replicate hp]
      trivial
  have hf0 : (⟨s, List.replicate M Pc.start⟩ : Conf).Fresh [] := by
    intro _ i p hi
    have hp : p ∈ List.replicate M Pc.start := List.getElem?_mem hi
    exact Or.inl ⟨List.eq_of_mem_replicate hp, by simp⟩
  have hlen := Conf.run_length pfx sched ⟨s, List.replicate M Pc.start⟩
  have hinv := Conf.inv_run hs hv sched _ h0
  have hfresh := Conf.fresh_run hs hv sched [] _ h0 hf0
  simp only [List.nil_append] at hfresh
  generalize Conf.run pfx sched ⟨s, List.replicate M Pc.start⟩ = c at hlen hinv hfresh
  simp only [List.length_replicate] at hlen
  rcases hinv with ⟨hst, hcnt, hall⟩ | ⟨hst, hcnt, hall⟩
  · refine ⟨?_, by omega, ?_, ?_⟩
    · intro p hp hd
      rw [Pc.early_not_done (hall p hp)] at hd
      simp at hd
    · rintro ⟨i, hi, h2⟩
      exfalso
      have hlt : i < c.procs.length := by omega
      rcases hfresh hcnt i c.procs[i] (List.getElem?_eq_getElem hlt) with ⟨_, h3⟩ | ⟨_, h3⟩ <;>
        omega
    · intro hq
      exfalso
      rcases hc : c.procs with _ | ⟨p, ps⟩
      · rw [hc] at hlen
        simp at hlen
        omega
      have hp : p ∈ c.procs := by rw [hc]; simp
      have hstep := hq p hp
      have hearly := hall p hp
      cases p with
      | start => simp [Pc.step] at hstep
      | claiming r todo =>
        obtain ⟨_, h2⟩ := hearly
        subst h2
        rw [hst] at hstep
        simp [Pc.step, (deleteRev_head hs hv).1] at hstep
      | waiting rev => exact absurd hearly (by simp [Pc.early])
      | woken ev => exact absurd hearly (by simp [Pc.early])
      | done val err => exact absurd hearly (by simp [Pc.early])
  · refine ⟨?_, by omega, fun _ => hcnt, fun _ => hcnt⟩
    intro p hp hd
    have hlate := hall p hp
    cases p with
    | done val err =>
      obtain ⟨h1, h2⟩ := hlate
      rw [h1, h2]
    | start => simp [Pc.isDone] at hd
    | claiming r todo => simp [Pc.isDone] at hd
    | waiting rev => simp [Pc.isDone] at hd
    | woken ev => simp [Pc.isDone] at hd

/-- A run for C3: two concurrent calls over one entry; the second call claims
it, the first one ends in a wait with no event. -/
theorem exactly_one_claims_witness :
    (Conf.run "q" [0, 1, 1, 0, 0, 0, 0, 0, 0]
        ⟨⟨1, [⟨"q/1", "a", 1⟩], [⟨EventType.PUT, ⟨"q/1", "a", 1⟩⟩]⟩,
          List.replicate 2 Pc.start⟩).procs = [Pc.waiting 2, Pc.done "a" none] ∧
    (Conf.run "q" [0, 1, 1, 0, 0, 0, 0, 0, 0]
        ⟨⟨1, [⟨"q/1", "a", 1⟩], [⟨EventType.PUT, ⟨"q/1", "a", 1⟩⟩]⟩,
          List.replicate 2 Pc.start⟩).procs.countP Pc.isDone = 1 :=
  ⟨by decide,
    (exactly_one_claims "q" ⟨1, [⟨"q/1", "a", 1⟩], [⟨EventType.PUT, ⟨"q/1", "a", 1⟩⟩]⟩
      ⟨"q/1", "a", 1⟩ 2 [0, 1, 1, 0, 0, 0, 0, 0, 0]
      (by simp [Store.Sorted]) (by decide) (by decide)).2.2.2
      (by unfold Conf.quiescent; decide)⟩

/-! ## The step machine against `Dequeue` -/

theorem Pc.iter_add (pfx : String) (a b : Nat) :
    ∀ c : Pc × Store, Pc.iter pfx (a + b) c = Pc.iter pfx b (Pc.iter pfx a c) := by
  induction a with
  | zero => intro c; simp [Pc.iter]
  | succ a ih =>
    intro c
    rw [Nat.add_right_comm]
    simp only [Pc.iter]
    exact ih _

theorem delete_solo (keyFor : KeyFormat) (key : String) (rev : Int) (s : Store) :
    (worldClient keyFor).deleteRevKey key rev ⟨s, []⟩ =
      (⟨(s.deleteRev key rev).1, []⟩, Res.ok (s.deleteRev key rev).2) := by
  simp [worldClient, advance]

/-- With no other client, the steps of the machine through the entries of a
range read are those of `claimFirstKey`. -/
theorem claim_solo (keyFor : KeyFormat) (pfx : String) (resp : GetResponse)
    (kvs : List KeyValue) :
    ∀ s : Store, ∃ n s1,
      ((claimFirstKey (worldClient keyFor) kvs ⟨s, []⟩ = (⟨s1, []⟩, Res.ok none) ∧
          Pc.iter pfx n (Pc.claiming resp kvs, s) = (Pc.claiming resp [], s1)) ∨
       (∃ k, claimFirstKey (worldClient keyFor) kvs ⟨s, []⟩ = (⟨s1, []⟩, Res.ok (some k)) ∧
          Pc.iter pfx n (Pc.claiming resp kvs, s) = (Pc.done k.Value none, s1))) := by
  induction kvs with
  | nil => intro s; exact ⟨0, s, Or.inl ⟨by simp [claimFirstKey], rfl⟩⟩
  | cons k kvs ih =>
    intro s
    rcases hb : (s.deleteRev k.Key k.ModRevision).2 with _ | _
    · obtain ⟨n, s1, h⟩ := ih (s.deleteRev k.Key k.ModRevision).1
      have hstep : Pc.step pfx (Pc.claiming resp (k :: kvs)) s =
          (Pc.claiming resp kvs, (s.deleteRev k.Key k.ModRevision).1) := by
        rcases hd : s.deleteRev k.Key k.ModRevision with ⟨s2, b⟩
        rw [hd] at hb
        simp only at hb
        subst hb
        simp [Pc.step, hd]
      refine ⟨n + 1, s1, ?_⟩
      simp only [claimFirstKey, delete_solo, hb, Pc.iter, hstep]
      exact h
    · have hstep : Pc.step pfx (Pc.claiming resp (k :: kvs)) s =
          (Pc.done k.Value none, (s.deleteRev k.Key k.ModRevision).1) := by
        rcases hd : s.deleteRev k.Key k.ModRevision with ⟨s2, b⟩
        rw [hd] at hb
        simp only at hb
        subst hb
        simp [Pc.step, hd]
      refine ⟨1, (s.deleteRev k.Key k.ModRevision).1, Or.inr ⟨k, ?_, ?_⟩⟩
      · simp only [claimFirstKey, delete_solo, hb]
      · simp only [Pc.iter, hstep]

/-- The step machine follows `Dequeue`: with no other client, whenever
`Dequeue` returns, the machine started at `Pc.start` on the same store reaches
`Pc.done` with the same result and the same store, and whenever `Dequeue` waits
for ever, the machine reaches a wait for which the store has no event. -/
theorem solo_refines (keyFor : KeyFormat) (pfx : String) (fuel : Nat) :
    ∀ (s : Store) (w1 : World),
      (∀ v err, (NewQueue (worldClient keyFor) pfx).Dequeue fuel ⟨s, []⟩
          = (w1, Outcome.returned v err) →
        ∃ n, Pc.iter pfx n (Pc.start, s) = (Pc.done v err, w1.store)) ∧
      ((NewQueue (worldClient keyFor) pfx).Dequeue fuel ⟨s, []⟩ = (w1, Outcome.blocked) →
        ∃ n rev, Pc.iter pfx n (Pc.start, s) = (Pc.waiting rev, w1.store) ∧
          firstEvent pfx rev [EventType.PUT] w1.store.Events = none) := by
  induction fuel with
  | zero => intro s w1; simp [Queue.Dequeue]
  | succ fuel ih =>
    intro s w1
    have hget : (worldClient keyFor).Get pfx WithFirstRev ⟨s, []⟩ =
        (⟨s, []⟩, Res.ok (s.range pfx WithFirstRev)) := by
      simp [worldClient, advance]
    have hstart : Pc.step pfx Pc.start s =
        (Pc.claiming (s.range pfx WithFirstRev) (s.range pfx WithFirstRev).Kvs, s) := rfl
    obtain ⟨n, s1, hc⟩ := claim_solo keyFor pfx (s.range pfx WithFirstRev)
      (s.range pfx WithFirstRev).Kvs s
    rcases hc with ⟨hc, hit⟩ | ⟨k, hc, hit⟩
    swap
    · -- an entry was claimed
      simp only [Queue.Dequeue, NewQueue, hget, hc]
      constructor
      · intro v err h
        simp only [Prod.mk.injEq, Outcome.returned.injEq] at h
        obtain ⟨rfl, rfl, rfl⟩ := h
        exact ⟨1 + n, by rw [Pc.iter_add]; simp only [Pc.iter, hstart, hit]⟩
      · intro h
        simp at h
    have hclaims : Pc.iter pfx (1 + n) (Pc.start, s) =
        (Pc.claiming (s.range pfx WithFirstRev) [], s1) := by
      rw [Pc.iter_add]
      simp only [Pc.iter, hstart, hit]
    by_cases hm : (s.range pfx WithFirstRev).More = true
    · -- all claims lost and more entries reported: start over
      have hnext : Pc.iter pfx (1 + n + 1) (Pc.start, s) = (Pc.start, s1) := by
        rw [Pc.iter_add, hclaims]
        simp [Pc.iter, Pc.step, hm]
      simp only [Queue.Dequeue, NewQueue, hget, hc, hm, if_true]
      obtain ⟨ih1, ih2⟩ := ih s1 w1
      constructor
      · intro v err h
        obtain ⟨m, hm2⟩ := ih1 v err h
        exact ⟨1 + n + 1 + m, by rw [Pc.iter_add, hnext, hm2]⟩
      · intro h
        obtain ⟨m, rev, hm2, hm3⟩ := ih2 h
        exact ⟨1 + n + 1 + m, rev, by rw [Pc.iter_add, hnext, hm2], hm3⟩
    have hm2 : (s.range pfx WithFirstRev).More = false := by simpa using hm
    have hwaiting : Pc.iter pfx (1 + n + 1) (Pc.start, s) =
        (Pc.waiting (s.range pfx WithFirstRev).Header.Revision, s1) := by
      rw [Pc.iter_add, hclaims]
      simp [Pc.iter, Pc.step, hm2]
    rcases hf : firstEvent pfx (s.range pfx WithFirstRev).Header.Revision [EventType.PUT]
      s1.Events with _ | ev
    · -- no event: the wait never returns
      have hwait : (worldClient keyFor).WaitPrefixEvents pfx
          (s.range pfx WithFirstRev).Header.Revision [EventType.PUT] ⟨s1, []⟩ =
            (⟨s1, []⟩, none) := by
        simp [worldClient, advance, awaitEvent, hf]
      simp only [Queue.Dequeue, NewQueue, hget, hc, hm2, hwait, Bool.false_eq_true, if_false]
      constructor
      · intro v err h
        simp at h
      · intro h
        simp only [Prod.mk.injEq, and_true] at h
        subst h
        exact ⟨1 + n + 1, _, hwaiting, hf⟩
    have hwait : (worldClient keyFor).WaitPrefixEvents pfx
        (s.range pfx WithFirstRev).Header.Revision [EventType.PUT] ⟨s1, []⟩ =
          (⟨s1, []⟩, some (Res.ok ev)) := by
      simp [worldClient, advance, awaitEvent, hf]
    have hwoken : Pc.iter pfx (1 + n + 1 + 1) (Pc.start, s) = (Pc.woken ev, s1) := by
      rw [Pc.iter_add, hwaiting]
      simp [Pc.iter, Pc.step, hf]
    rcases hb : (s1.deleteRev ev.Kv.Key ev.Kv.ModRevision).2 with _ | _
    · -- the claim after the wake is lost: start over
      have hnext : Pc.iter pfx (1 + n + 1 + 1 + 1) (Pc.start, s) =
          (Pc.start, (s1.deleteRev ev.Kv.Key ev.Kv.ModRevision).1) := by
        rw [Pc.iter_add, hwoken]
        rcases hd : s1.deleteRev ev.Kv.Key ev.Kv.ModRevision with ⟨s2, b⟩
        rw [hd] at hb
        simp only at hb
        subst hb
        simp [Pc.iter, Pc.step, hd]
      simp only [Queue.Dequeue, NewQueue, hget, hc, hm2, hwait, delete_solo, hb,
        Bool.false_eq_true, if_false]
      obtain ⟨ih1, ih2⟩ := ih (s1.deleteRev ev.Kv.Key ev.Kv.ModRevision).1 w1
      constructor
      · intro v err h
        obtain ⟨m, hm3⟩ := ih1 v err h
        exact ⟨1 + n + 1 + 1 + 1 + m, by rw [Pc.iter_add, hnext, hm3]⟩
      · intro h
        obtain ⟨m, rev, hm3, hm4⟩ := ih2 h
        exact ⟨1 + n + 1 + 1 + 1 + m, rev, by rw [Pc.iter_add, hnext, hm3], hm4⟩
    · have hdone : Pc.iter pfx (1 + n + 1 + 1 + 1) (Pc.start, s) =
          (Pc.done ev.Kv.Value none, (s1.deleteRev ev.Kv.Key ev.Kv.ModRevision).1) := by
        rw [Pc.iter_add, hwoken]
        rcases hd : s1.deleteRev ev.Kv.Key ev.Kv.ModRevision with ⟨s2, b⟩
        rw [hd] at hb
        simp only at hb
        subst hb
        simp [Pc.iter, Pc.step, hd]
      simp only [Queue.Dequeue, NewQueue, hget, hc, hm2, hwait, delete_solo, hb,
        Bool.false_eq_true, if_false]
      constructor
      · intro v err h
        simp only [Prod.mk.injEq, Outcome.returned.injEq] at h
        obtain ⟨rfl, rfl, rfl⟩ := h
        exact ⟨_, hdone⟩
      · intro h
        simp at h

/-! ## The zero-padded key format keeps insertion order -/

theorem underPrefix_append (pfx rest : String) : underPrefix pfx (pfx ++ rest) = true := by
  simp [underPrefix]

theorem chars_lt_append_left (l : List Char) {a b : List Char} (h : a < b) :
    l ++ a < l ++ b := by
  induction l with
  | nil => exact h
  | cons c l ih => exact List.Lex.cons ih

theorem chars_lt_append_right {a b : List Char} (x y : List Char) (h : a < b)
    (hlen : a.length = b.length) : a ++ x < b ++ y := by
  induction a generalizing b with
  | nil =>
    cases b with
    | nil => exact absurd h (by intro h; cases h)
    | cons c b => simp at hlen
  | cons c a ih =>
    cases b with
    | nil => simp at hlen
    | cons d b =>
      simp at hlen
      cases h with
      | rel hcd => exact List.Lex.rel hcd
      | cons h3 => exact List.Lex.cons (ih h3 hlen)

theorem fixedWidth_length (w n : Nat) : (fixedWidth w n).length = w := by
  induction w generalizing n with
  | zero => rfl
  | succ w ih => simp [fixedWidth, ih]

theorem digit_lt {i j : Nat} (hij : i < j) (hj : j < 10) :
    Char.ofNat (48 + i) < Char.ofNat (48 + j) := by
  interval_cases j <;> interval_cases i <;> decide

/-- On numbers that fit into the width, the zero-padded digits compare as the
numbers do. -/
theorem fixedWidth_lt (w : Nat) : ∀ n m : Nat, n < m → m < 10 ^ w →
    fixedWidth w n < fixedWidth w m := by
  induction w with
  | zero => intro n m h1 h2; simp at h2; omega
  | succ w ih =>
    intro n m h1 h2
    simp only [fixedWidth]
    by_cases hq : n / 10 < m / 10
    · have hm : m / 10 < 10 ^ w := by
        rw [Nat.div_lt_iff_lt_mul (by norm_num)]
        rw [pow_succ] at h2
        exact h2
      exact chars_lt_append_right _ _ (ih _ _ hq hm)
        (by rw [fixedWidth_length, fixedWidth_length])
    · have heq : n / 10 = m / 10 := by omega
      rw [heq]
      have hd : Char.ofNat (48 + n % 10) < Char.ofNat (48 + m % 10) :=
        digit_lt (by omega) (by omega)
      exact chars_lt_append_left _ (List.Lex.rel hd)

/-- The key format with twenty zero-padded digits meets the contract of the
KeyAllocator on all revisions from zero up to twenty digits. -/
theorem paddedKey_ordered (pfx : String) (lo hi : Int) (h0 : 0 ≤ lo) (h1 : hi < 10 ^ 20) :
    paddedKey.Ordered pfx lo hi := by
  constructor
  · intro a _ _
    simp only [paddedKey, String.append_assoc]
    exact underPrefix_append _ _
  · intro a b ha hab hb
    have hlt : a.toNat < b.toNat := by omega
    have hb2 : b.toNat < 10 ^ 20 := by omega
    simp only [paddedKey, keyLt, decide_eq_true_eq, String.data_append, List.append_assoc]
    exact chars_lt_append_left _ (chars_lt_append_left _ (fixedWidth_lt 20 _ _ hlt hb2))

end Recipe
